import Mathlib

/-!
# Column specification compiler, favorites tracker and status indicator of k9s

A shallow embedding of `internal/render/cust_col.go` (`fullRX`, `newColFlags`,
`parse`, `toHeaderCol`), of `internal/config/data/ns.go` (the favorites
tracker) and of the status text of `internal/ui/indicator.go`, and the proofs
of the properties the specification states about them.  The definitions of the
three files come first, the proofs after them.

## Conventions

* A Go `string` is the list of its bytes; a byte is a natural number below 256.
  None of the embedded functions does arithmetic on a byte (bytes are only
  compared), so no reduction modulo 256 appears.
* Go's `regexp` package returns the leftmost match and, among those, the one a
  backtracking search would find first.  `Regex.run` lists the ways a regular
  expression can match at the start of its input in exactly that priority
  order, so the first element of the list is the match Go reports.
* `regexp` decodes its input as UTF-8 and `[\w\W]` consumes one code point.
  Every other item of `fullRX` consumes ASCII bytes only, and an ASCII byte is
  never part of a multi-byte code point, so a split of the input that leaves
  an ASCII-only remainder is a split at a code point boundary: matching byte by
  byte captures the same three groups.
* `slog.Warn` and the call of the path engine are side effects; they are kept
  as explicit lists in the value returned by the embedded functions.
-/

namespace Render

/-- A Go string, as its list of bytes. -/
abbrev GoString := List Nat

/-- The bytes of a string literal (its UTF-8 encoding). -/
def str (s : String) : GoString :=
  s.data.flatMap (fun c => (String.utf8EncodeChar c).map UInt8.toNat)

/-! ## Regular expressions (the fragment of Go's syntax used by `fullRX`) -/

/-- Abstract syntax of the regular expressions in use.  Repetition is applied
to character classes only, which is all that `fullRX` needs. -/
inductive Regex where
  /-- Anchor `^` (without the `m` flag): beginning of text. -/
  | bot : Regex
  /-- Anchor `$` (without the `m` flag): end of text. -/
  | eot : Regex
  /-- A literal byte. -/
  | lit (c : Nat) : Regex
  /-- Concatenation. -/
  | seq (a b : Regex) : Regex
  /-- Greedy `a?`. -/
  | opt (a : Regex) : Regex
  /-- Greedy `[class]+`. -/
  | plus (p : Nat → Bool) : Regex
  /-- Non-greedy `[class]*?`. -/
  | lazyStar (p : Nat → Bool) : Regex
  /-- Greedy `[class]{lo,hi}`. -/
  | rep (p : Nat → Bool) (lo hi : Nat) : Regex
  /-- Capturing group `(a)`. -/
  | cap (a : Regex) : Regex

/-- One way of matching: the bytes consumed, the captured groups (in order of
their opening parenthesis) and the input left over. -/
structure Thread where
  consumed : GoString
  caps : List GoString
  rest : GoString
  deriving DecidableEq, Repr

/-- Prepend a consumed byte to the consumed part of a split. -/
def consByte (c : Nat) (t : GoString × GoString) : GoString × GoString :=
  (c :: t.1, t.2)

/-- The splits of `s` into a prefix of at most `hi` bytes of class `p` and the
rest, longest prefix first (greedy repetition). -/
def greedySplits (p : Nat → Bool) : Nat → GoString → List (GoString × GoString)
  | 0, s => [([], s)]
  | _ + 1, [] => [([], [])]
  | hi + 1, c :: t =>
    if p c then (greedySplits p hi t).map (consByte c) ++ [([], c :: t)]
    else [([], c :: t)]

/-- The splits of `s` into a prefix of bytes of class `p` and the rest,
shortest prefix first (non-greedy repetition). -/
def lazySplits (p : Nat → Bool) : GoString → List (GoString × GoString)
  | [] => [([], [])]
  | c :: t => ([], c :: t) :: (if p c then (lazySplits p t).map (consByte c) else [])

/-- A split seen as a thread without captures. -/
def splitThread (t : GoString × GoString) : Thread :=
  { consumed := t.1, caps := [], rest := t.2 }

/-- Continue thread `x` with thread `y`, which was run on the rest of `x`. -/
def Thread.andThen (x y : Thread) : Thread :=
  { consumed := x.consumed ++ y.consumed, caps := x.caps ++ y.caps, rest := y.rest }

/-- Record the bytes consumed by a thread as the capture of the group around it. -/
def Thread.capture (x : Thread) : Thread :=
  { x with caps := x.consumed :: x.caps }

/-- All the ways `re` matches a prefix of `s`, in the priority order of a
backtracking search.  `atStart` tells whether `s` is the whole text.  For
`plus` the bound `s.length` on the number of repetitions is no restriction. -/
def Regex.run : Regex → Bool → GoString → List Thread
  | .bot, atStart, s => if atStart then [⟨[], [], s⟩] else []
  | .eot, _, s => if s.isEmpty then [⟨[], [], s⟩] else []
  | .lit c, _, s =>
    match s with
    | x :: t => if x = c then [⟨[x], [], t⟩] else []
    | [] => []
  | .seq a b, atStart, s =>
    (a.run atStart s).flatMap
      (fun x => (b.run (atStart && x.consumed.isEmpty) x.rest).map x.andThen)
  | .opt a, atStart, s => a.run atStart s ++ [⟨[], [], s⟩]
  | .plus p, _, s =>
    ((greedySplits p s.length s).filter (fun t => decide (1 ≤ t.1.length))).map splitThread
  | .lazyStar p, _, s => (lazySplits p s).map splitThread
  | .rep p lo hi, _, s =>
    ((greedySplits p hi s).filter (fun t => decide (lo ≤ t.1.length))).map splitThread
  | .cap a, atStart, s => (a.run atStart s).map Thread.capture

/-- The match of `re` starting at the current offset, if any: the matched text
followed by the captured groups. -/
def Regex.matchHere (re : Regex) (atStart : Bool) (s : GoString) : Option (List GoString) :=
  match re.run atStart s with
  | x :: _ => some (x.consumed :: x.caps)
  | [] => none

/-- The leftmost match in `s`, trying the offsets from left to right. -/
def Regex.findFrom (re : Regex) : Bool → GoString → List GoString
  | atStart, [] => (re.matchHere atStart []).getD []
  | atStart, c :: t =>
    match re.matchHere atStart (c :: t) with
    | some mm => mm
    | none => re.findFrom false t

/-- Go's `(*Regexp).FindStringSubmatch`: the leftmost match and its groups, or
the nil slice (here `[]`) when there is no match. -/
def Regex.FindStringSubmatch (re : Regex) (s : GoString) : List GoString :=
  re.findFrom true s

/-! ## `cust_col.go` -/

/-- Perl class `\w` of Go's `regexp/syntax`: `[0-9A-Za-z_]`. -/
def isWord (b : Nat) : Bool :=
  (decide ('0'.toNat ≤ b) && decide (b ≤ '9'.toNat)) ||
  (decide ('A'.toNat ≤ b) && decide (b ≤ 'Z'.toNat)) ||
  (decide ('a'.toNat ≤ b) && decide (b ≤ 'z'.toNat)) ||
  decide (b = '_'.toNat)

/-- Perl class `\s` of Go's `regexp/syntax`: `[\t\n\f\r ]`. -/
def isSpace (b : Nat) : Bool :=
  decide (b = 0x09) || decide (b = 0x0A) || decide (b = 0x0C) || decide (b = 0x0D) ||
  decide (b = 0x20)

-- The class of the name group, written [\w\s%/-] in the pattern.
/-- The class of the name group: word characters, white space, percent sign,
slash and hyphen. -/
def nameChar (b : Nat) : Bool :=
  isWord b || isSpace b || decide (b = '%'.toNat) || decide (b = '/'.toNat) ||
  decide (b = '-'.toNat)

/-- The class `[\w\W]`: anything. -/
def anyChar (_ : Nat) : Bool := true

/-- The class `[NTWSLRH]` of the flag group. -/
def flagChar (b : Nat) : Bool :=
  decide (b = 'N'.toNat) || decide (b = 'T'.toNat) || decide (b = 'W'.toNat) ||
  decide (b = 'S'.toNat) || decide (b = 'L'.toNat) || decide (b = 'R'.toNat) ||
  decide (b = 'H'.toNat)

-- var fullRX = regexp.MustCompile(`^([\w\s%/-]+):?([\w\W]*?)\|?([NTWSLRH]{0,3})$`)
/-- The pattern `fullRX`: beginning of text, the name group (one or more name
characters, greedy), an optional colon, the path group (any characters,
non-greedy), an optional vertical bar, the flag group (up to three flag
characters, greedy), end of text. -/
def fullRX : Regex :=
  .seq .bot
    (.seq (.cap (.plus nameChar))
      (.seq (.opt (.lit ':'.toNat))
        (.seq (.cap (.lazyStar anyChar))
          (.seq (.opt (.lit '|'.toNat))
            (.seq (.cap (.rep flagChar 0 3)) .eot)))))

/-- The type `colAttr` is `byte`. -/
abbrev colAttr := Nat

def number : colAttr := 'N'.toNat
def age : colAttr := 'T'.toNat
def wide : colAttr := 'W'.toNat
def «show» : colAttr := 'S'.toNat
def alignLeft : colAttr := 'L'.toNat
def alignRight : colAttr := 'R'.toNat
def hide : colAttr := 'H'.toNat

/-- Value of `tview.AlignLeft` (first constant of tview's alignment `iota` block). -/
def AlignLeft : Int := 0

/-- Value of `tview.AlignRight` (third constant of tview's alignment `iota` block). -/
def AlignRight : Int := 2

/-- The struct `colAttrs`. -/
structure colAttrs where
  align : Int
  mx : Bool
  mxc : Bool
  mxm : Bool
  time : Bool
  wide : Bool
  «show» : Bool
  hide : Bool
  capacity : Bool
  deriving DecidableEq, Repr

/-- The zero value of `colAttrs`. -/
def colAttrs.zero : colAttrs :=
  { align := 0, mx := false, mxc := false, mxm := false, time := false, wide := false,
    «show» := false, hide := false, capacity := false }

/-- One iteration of the loop of `newColFlags`: the `switch` on byte `b`.  The
second component is the list of bytes reported with
`slog.Warn("Unknown column attribute", slogs.Attr, b)`, oldest first. -/
def newColFlagsStep (st : colAttrs × List Nat) (b : Nat) : colAttrs × List Nat :=
  if b = hide then ({ st.1 with hide := true }, st.2)
  else if b = wide then ({ st.1 with wide := true, «show» := false }, st.2)
  else if b = «show» then ({ st.1 with «show» := true, wide := false }, st.2)
  else if b = alignLeft then ({ st.1 with align := AlignLeft }, st.2)
  else if b = alignRight then ({ st.1 with align := AlignRight }, st.2)
  else if b = age then ({ st.1 with time := true }, st.2)
  else if b = number then ({ st.1 with capacity := true, align := AlignRight }, st.2)
  else (st.1, st.2 ++ [b])

/-- The function `newColFlags`, with the warnings it logs. -/
def newColFlags (flags : GoString) : colAttrs × List Nat :=
  flags.foldl newColFlagsStep ({ colAttrs.zero with align := AlignLeft, wide := false }, [])

/-- The struct `colDef`. -/
structure colDef extends colAttrs where
  name : GoString
  idx : Int
  spec : GoString
  deriving DecidableEq, Repr

/-- The composite literal `colDef{idx: -1}`. -/
def colDef.blank : colDef :=
  { colAttrs.zero with name := [], idx := -1, spec := [] }

/-- The errors `parse` returns: the one it builds itself with
`fmt.Errorf("invalid column definition %q", s)` and the one it receives from
the path engine, of an arbitrary type `E`. -/
inductive ParseError (E : Type) where
  | invalidColumnDefinition (s : GoString) : ParseError E
  | pathEngine (e : E) : ParseError E
  deriving DecidableEq, Repr

/-- What a call of `parse` returns and does: the two results, the arguments of
its calls of the path engine and the bytes it warned about. -/
structure ParseResult (E : Type) where
  def_ : colDef
  err : Option (ParseError E)
  engineCalls : List GoString
  warnings : List Nat
  deriving DecidableEq, Repr

/-- The function `parse`.  The path engine `get.RelaxedJSONPathExpression`
belongs to kubectl and is a parameter: it returns a string and an optional
error.  The slice `mm` has four elements where it is indexed, so the default
of `getD` is never used. -/
def parse {E : Type} (engine : GoString → GoString × Option E) (s : GoString) : ParseResult E :=
  let mm := fullRX.FindStringSubmatch s
  if mm.length = 4 then
    let r := engine (mm.getD 2 [])
    match r.2 with
    | some err =>
      { def_ := colDef.blank, err := some (.pathEngine err),
        engineCalls := [mm.getD 2 []], warnings := [] }
    | none =>
      let fl := newColFlags (mm.getD 3 [])
      { def_ := { fl.1 with name := mm.getD 1 [], idx := -1, spec := r.1 },
        err := none, engineCalls := [mm.getD 2 []], warnings := fl.2 }
  else
    { def_ := colDef.blank, err := some (.invalidColumnDefinition s),
      engineCalls := [], warnings := [] }

/-- Modelled from the spec: the struct `model1.Attrs`, declared outside the
source files at hand.  Its fields are those that the composite literal of
`toHeaderCol` names. -/
structure Attrs where
  Align : Int
  Wide : Bool
  Show : Bool
  Time : Bool
  MX : Bool
  MXC : Bool
  MXM : Bool
  Hide : Bool
  Capacity : Bool
  deriving DecidableEq, Repr

/-- Modelled from the spec: the struct `model1.HeaderColumn`, declared outside
the source files at hand, with the two fields that `toHeaderCol` sets. -/
structure HeaderColumn where
  Name : GoString
  Attrs : Attrs
  deriving DecidableEq, Repr

/-- The method `colDef.toHeaderCol`. -/
def colDef.toHeaderCol (c : colDef) : HeaderColumn :=
  { Name := c.name,
    Attrs :=
      { Align := c.align, Wide := c.wide, Show := c.show, Time := c.time, MX := c.mx,
        MXC := c.mxc, MXM := c.mxm, Hide := c.hide, Capacity := c.capacity } }

/-! ## What `fullRX` captures, in closed form -/

/-- A flag field: at most three bytes, all of the flag alphabet. -/
def isFlags (r : GoString) : Bool :=
  decide (r.length ≤ 3) && r.all flagChar

/-- The flags of a remainder that has the shape of an optional vertical bar
followed by a flag field up to the end of the text. -/
def tailFlags (r : GoString) : Option GoString :=
  match r with
  | [] => some []
  | c :: t =>
    if c = '|'.toNat ∧ isFlags t = true then some t
    else if isFlags (c :: t) = true then some (c :: t)
    else none

/-- The shortest prefix of `r` whose remainder is accepted by `tailFlags`,
paired with the flags of that remainder. -/
def lazyScan : GoString → GoString × GoString
  | [] => ([], [])
  | c :: t =>
    match tailFlags (c :: t) with
    | some f => ([], f)
    | none => (c :: (lazyScan t).1, (lazyScan t).2)

/-- The path and flag fields of what follows the name: an initial colon is
skipped. -/
def afterName (r : GoString) : GoString × GoString :=
  match r with
  | c :: t => if c = ':'.toNat then lazyScan t else lazyScan (c :: t)
  | [] => lazyScan []

/-- The three fields of a column specification, computed by a direct scan. -/
def decompose (s : GoString) : Option (GoString × GoString × GoString) :=
  if s.takeWhile nameChar = [] then none
  else some (s.takeWhile nameChar, afterName (s.dropWhile nameChar))

/-! ### The pattern, piece by piece from its end -/

/-- The flag group followed by the end of the text. -/
def flagsRX : Regex := .seq (.cap (.rep flagChar 0 3)) .eot

/-- The optional vertical bar, the flag group and the end of the text. -/
def tailRX : Regex := .seq (.opt (.lit '|'.toNat)) flagsRX

/-- The path group followed by the tail. -/
def pathRX : Regex := .seq (.cap (.lazyStar anyChar)) tailRX

/-- Everything after the name group. -/
def colonRX : Regex := .seq (.opt (.lit ':'.toNat)) pathRX

/-- The pattern without its leading anchor. -/
def nameRX : Regex := .seq (.cap (.plus nameChar)) colonRX

/-! ### Last occurrence among a set of bytes -/

/-- The last byte of `flags` that is one of `cs`, if there is one. -/
def lastAmong (cs : List Nat) (flags : GoString) : Option Nat :=
  (flags.filter (fun b => decide (b ∈ cs))).getLast?

/-! ### Path engines for concrete evaluations -/

/-- A path engine that accepts every path and returns it unchanged. -/
def engineAcceptAll (p : GoString) : GoString × Option Unit := (p, none)

/-- A path engine that rejects the paths holding an opening square bracket and
returns the others unchanged. -/
def engineNoBracket (p : GoString) : GoString × Option Unit :=
  if '['.toNat ∈ p then ([], some ()) else (p, none)

end Render

/-! # Favorites tracker of k9s (`internal/config/data/ns.go`)

The mutex of `Namespace` and the debug logging are left out.  The constants of
package `client` are declared outside the source files at hand and are a
parameter.  Two trackers are taken not to share a backing array. -/

namespace Data

open Render (GoString str)

/-- The constant `MaxFavoritesNS`. -/
def MaxFavoritesNS : Nat := 9

/-- The constants of package `client` that `ns.go` uses. -/
structure ClientConsts where
  NamespaceAll : GoString
  BlankNamespace : GoString
  DefaultNamespace : GoString

/-- The struct `Namespace`, without its mutex. -/
structure Namespace where
  Active : GoString
  LockFavorites : Bool
  Favorites : List GoString
  deriving DecidableEq, Repr

/-- The function `NewActiveNamespace`. -/
def NewActiveNamespace (c : ClientConsts) (n : GoString) : Namespace :=
  let n := if n = c.BlankNamespace then c.DefaultNamespace else n
  { Active := n, LockFavorites := false, Favorites := [c.DefaultNamespace] }

/-- The function `NewNamespace`. -/
def NewNamespace (c : ClientConsts) : Namespace :=
  NewActiveNamespace c c.DefaultNamespace

/-- The method `trimFavNs`. -/
def trimFavNs (n : Namespace) : Namespace :=
  if n.Favorites.length > MaxFavoritesNS then
    { n with Favorites := n.Favorites.take MaxFavoritesNS }
  else n

/-- The body of the loop of `merge` for one favorite of `old`. -/
def mergeStep (n : Namespace) (fav : GoString) : Namespace :=
  if n.Favorites.contains fav then n
  else { n with Favorites := n.Favorites ++ [fav] }

/-- The method `merge`. -/
def merge (n old : Namespace) : Namespace :=
  if n.LockFavorites then n
  else trimFavNs (old.Favorites.foldl mergeStep n)

/-- The body of the loop of `addFavNS` at index `p.1` with element `p.2`. -/
def addFavStep (nfv : List GoString) (p : Nat × GoString) : List GoString :=
  if p.1 + 1 < MaxFavoritesNS then nfv ++ [p.2] else nfv

/-- The method `addFavNS`. -/
def addFavNS (n : Namespace) (ns : GoString) : Namespace :=
  if n.Favorites.contains ns then n
  else { n with Favorites := n.Favorites.enum.foldl addFavStep [ns] }

/-- The slice `n.Favorites` together with the cells of its backing array: the
slice is the first `len` cells. -/
structure FavSlice where
  cells : List GoString
  len : Nat
  deriving DecidableEq, Repr

/-- The elements of a slice. -/
def FavSlice.view (s : FavSlice) : List GoString := s.cells.take s.len

/-- The search loop of `rmFavNS`: the index of the first favorite equal to
`ns`; `none` stands for the initial value `-1`. -/
def victim (ns : GoString) : List GoString → Option Nat
  | [] => none
  | f :: rest => if f = ns then some 0 else (victim ns rest).map (· + 1)

/-- The method `rmFavNS` on the slice and its backing array.  The expression
`append(n.Favorites[:victim], n.Favorites[victim+1:]...)` has room in the
backing array, so it copies the cells after the victim one place to the left,
leaves the cell that was the last one of the slice as it is, and the slice
gets one element shorter. -/
def rmFavSlice (lock : Bool) (s : FavSlice) (ns : GoString) : FavSlice :=
  if lock then s
  else
    match victim ns s.view with
    | none => s
    | some v =>
      { cells := s.cells.take v ++ (s.cells.take s.len).drop (v + 1) ++
          s.cells.drop (s.len - 1),
        len := s.len - 1 }

/-- The method `rmFavNS`. -/
def rmFavNS (n : Namespace) (ns : GoString) : Namespace :=
  { n with
    Favorites := (rmFavSlice n.LockFavorites ⟨n.Favorites, n.Favorites.length⟩ ns).view }

/-- The body of the loop of `Validate` at index `i`.  The `range` clause has
evaluated `n.Favorites` once, so the loop reads cell `i` of the backing array
as it is now. -/
def validateStep (lock : Bool) (isValid : GoString → Bool) (s : FavSlice) (i : Nat) :
    FavSlice :=
  if !isValid (s.cells.getD i []) then rmFavSlice lock s (s.cells.getD i []) else s

/-- The method `Validate`.  The connection is `none` for `nil` and otherwise
its method `IsValidNamespace`. -/
def Validate (n : Namespace) (conn : Option (GoString → Bool)) : Namespace :=
  match conn with
  | none => n
  | some isValid =>
    if !isValid n.Active then n
    else
      let s := (List.range n.Favorites.length).foldl (validateStep n.LockFavorites isValid)
        ⟨n.Favorites, n.Favorites.length⟩
      trimFavNs { n with Favorites := s.view }

/-- The method `SetActive` on a receiver that is not nil; the second component
is the error returned. -/
def SetActive (c : ClientConsts) (n : Namespace) (ns : GoString) : Namespace × Option Unit :=
  let ns := if ns = c.BlankNamespace then c.NamespaceAll else ns
  let n := { n with Active := ns }
  let n := if ns ≠ [] ∧ n.LockFavorites = false then addFavNS n ns else n
  (n, none)

/-- The trackers that the constructors and the methods can produce. -/
inductive Reachable (c : ClientConsts) : Namespace → Prop where
  | newNamespace : Reachable c (NewNamespace c)
  | newActiveNamespace (a : GoString) : Reachable c (NewActiveNamespace c a)
  | setActive (n : Namespace) (ns : GoString) :
    Reachable c n → Reachable c (SetActive c n ns).1
  | merge (n old : Namespace) : Reachable c n → Reachable c (merge n old)
  | validate (n : Namespace) (conn : Option (GoString → Bool)) :
    Reachable c n → Reachable c (Validate n conn)
  | addFavNS (n : Namespace) (ns : GoString) : Reachable c n → Reachable c (addFavNS n ns)
  | rmFavNS (n : Namespace) (ns : GoString) : Reachable c n → Reachable c (rmFavNS n ns)
  | trimFavNs (n : Namespace) : Reachable c n → Reachable c (trimFavNs n)

/-- The values of the constants of package `client` in k9s. -/
def k9sClient : ClientConsts :=
  { NamespaceAll := str "all", BlankNamespace := str "", DefaultNamespace := str "default" }

/-- A connection for which exactly the namespaces `a` and `b` are valid. -/
def connAB (ns : GoString) : Bool := decide (ns ∈ [str "a", str "b"])

/-- A connection for which every namespace is valid. -/
def connAny (_ : GoString) : Bool := true

end Data

/-! # Status indicator of k9s (`internal/ui/indicator.go`)

Only the text that `ClusterInfoChanged` sets is embedded.  The update that the
method queues for the user interface is taken as carried out. -/

namespace Ui

open Render (GoString str)

/-- Modelled from the spec: the struct `model.ClusterMeta`, declared outside
the source files at hand, with the fields that `indicator.go` reads. -/
structure ClusterMeta where
  Context : GoString
  Cluster : GoString
  K9sVer : GoString
  K8sVer : GoString
  Cpu : Int
  Mem : Int
  deriving DecidableEq, Repr

/-- The six color names that `ClusterInfoChanged` reads from `s.styles`, in the
order of their use: `Body().LogoColor`, `K9s.Info.K9sRevColor`,
`K9s.Info.FgColor`, `K9s.Info.CPUColor`, `Body().FgColor` and
`K9s.Info.MEMColor`, each after `String()`. -/
structure StyleColors where
  LogoColor : GoString
  K9sRevColor : GoString
  InfoFgColor : GoString
  CPUColor : GoString
  BodyFgColor : GoString
  MEMColor : GoString
  deriving DecidableEq, Repr

/-- The fields of `StatusIndicator` that hold text: `permanent` and the text
shown by the embedded `tview.TextView`. -/
structure StatusIndicator where
  permanent : GoString
  text : GoString
  deriving DecidableEq, Repr

/-- The scan of `fmt.Sprintf` over a format whose only verb is `%s`, with string
operands, one for each verb: every `%s` is replaced by the next operand.
`afterPercent` tells that the byte before was a percent sign.  Other verbs and
missing operands do not occur in `indicator.go`; the format text is kept for
them. -/
def SprintfScan : Bool → GoString → List GoString → GoString
  | false, [], _ => []
  | true, [], _ => ['%'.toNat]
  | false, c :: rest, args =>
    if c = '%'.toNat then SprintfScan true rest args else c :: SprintfScan false rest args
  | true, c :: rest, args =>
    if c = 's'.toNat then
      match args with
      | a :: args' => a ++ SprintfScan false rest args'
      | [] => '%'.toNat :: c :: SprintfScan false rest []
    else '%'.toNat :: c :: SprintfScan false rest args

/-- Go's `fmt.Sprintf`, for the formats described at `SprintfScan`. -/
def Sprintf (format : GoString) (args : List GoString) : GoString :=
  SprintfScan false format args

/-- The constant `statusIndicatorFmt`. -/
def statusIndicatorFmt : GoString :=
  str "[%s::b]K9s [%s::]%s [%s::]%s:%s:%s [%s::]%s[%s::]::[%s::]%s"

/-- The function `AsPercDelta`.  The helpers `render.IntToStr` and `Deltas` are
declared outside the source files at hand and are parameters. -/
def AsPercDelta (IntToStr : Int → GoString) (Deltas : GoString → GoString → GoString)
    (ov nv : Int) : GoString :=
  let prev := IntToStr ov
  let cur := IntToStr nv
  cur ++ str "%" ++ Deltas prev cur

/-- The method `SetPermanent`. -/
def SetPermanent (s : StatusIndicator) (info : GoString) : StatusIndicator :=
  { s with permanent := info, text := info }

/-- The method `ClusterInfoChanged`, with the update it queues carried out.
`running` is the value of `s.app.IsRunning()`. -/
def ClusterInfoChanged (IntToStr : Int → GoString) (Deltas : GoString → GoString → GoString)
    (styles : StyleColors) (running : Bool) (s : StatusIndicator) (prev cur : ClusterMeta) :
    StatusIndicator :=
  if !running then s
  else
    SetPermanent s (Sprintf statusIndicatorFmt
      [styles.LogoColor,
        styles.K9sRevColor,
        cur.K9sVer,
        styles.InfoFgColor,
        cur.Context,
        cur.Cluster,
        cur.K8sVer,
        styles.CPUColor,
        AsPercDelta IntToStr Deltas prev.Cpu cur.Cpu,
        styles.BodyFgColor,
        styles.MEMColor,
        AsPercDelta IntToStr Deltas prev.Cpu cur.Mem])

end Ui

/-! # Proofs for `cust_col.go` -/

namespace Render

/-! ### Lemmas on lists of threads -/

theorem head?_flatMap_eq_findSome? {α β : Type} (f : α → List β) (l : List α) :
    (l.flatMap f).head? = l.findSome? (fun a => (f a).head?) := by
  induction l with
  | nil => rfl
  | cons a l ih =>
    rw [List.flatMap_cons, List.findSome?_cons]
    cases h : f a with
    | nil => simpa using ih
    | cons b tl => simp

theorem matchHere_eq_head? (re : Regex) (b : Bool) (s : GoString) :
    re.matchHere b s = ((re.run b s).head?).map (fun x => x.consumed :: x.caps) := by
  unfold Regex.matchHere
  cases re.run b s <;> rfl

/-! ### The flag group up to the end of the text -/

theorem greedySplits_filter_end (p : Nat → Bool) (hi : Nat) (s : GoString) :
    (greedySplits p hi s).filter (fun t => t.2.isEmpty) =
      if s.length ≤ hi ∧ s.all p = true then [(s, [])] else [] := by
  induction hi generalizing s with
  | zero =>
    cases s <;> simp [greedySplits]
  | succ n ih =>
    cases s with
    | nil => simp [greedySplits]
    | cons c r =>
      simp only [greedySplits]
      by_cases hc : p c = true
      · simp only [hc, if_true, List.filter_append, List.filter_map]
        have : (List.filter (fun t => t.2.isEmpty) [(([] : GoString), c :: r)]) = [] := by
          simp
        rw [this, List.append_nil]
        have hcomp : ((fun t : GoString × GoString => t.2.isEmpty) ∘ consByte c) =
            (fun t => t.2.isEmpty) := by
          funext t; rfl
        rw [hcomp, ih r]
        by_cases h : r.length ≤ n ∧ r.all p = true
        · have h2 : (c :: r).length ≤ n + 1 ∧ (c :: r).all p = true := by
            simp [hc, h.1, h.2]
          simp only [if_pos h, if_pos h2]; rfl
        · have h2 : ¬ ((c :: r).length ≤ n + 1 ∧ (c :: r).all p = true) := by
            intro h3; apply h
            simp only [List.length_cons, List.all_cons, hc, Bool.true_and] at h3
            exact ⟨by omega, h3.2⟩
          simp only [if_neg h, if_neg h2]; rfl
      · have h2 : ¬ ((c :: r).length ≤ n + 1 ∧ (c :: r).all p = true) := by
          simp [hc]
        simp [hc, h2]

/-! ### Unfolding `Regex.run` one constructor at a time -/

theorem run_bot (b : Bool) (s : GoString) :
    Regex.bot.run b s = if b = true then [⟨[], [], s⟩] else [] := by
  simp [Regex.run]

theorem run_eot (b : Bool) (s : GoString) :
    Regex.eot.run b s = if s.isEmpty = true then [⟨[], [], s⟩] else [] := by
  simp [Regex.run]

theorem run_lit_cons (c : Nat) (b : Bool) (x : Nat) (t : GoString) :
    (Regex.lit c).run b (x :: t) = if x = c then [⟨[x], [], t⟩] else [] := by
  simp [Regex.run]

theorem run_lit_nil (c : Nat) (b : Bool) : (Regex.lit c).run b [] = [] := by
  simp [Regex.run]

theorem run_seq (a c : Regex) (b : Bool) (s : GoString) :
    (Regex.seq a c).run b s =
      (a.run b s).flatMap (fun x => (c.run (b && x.consumed.isEmpty) x.rest).map x.andThen) := by
  simp [Regex.run]

theorem run_opt (a : Regex) (b : Bool) (s : GoString) :
    (Regex.opt a).run b s = a.run b s ++ [⟨[], [], s⟩] := by
  simp [Regex.run]

theorem run_plus (p : Nat → Bool) (b : Bool) (s : GoString) :
    (Regex.plus p).run b s =
      ((greedySplits p s.length s).filter (fun t => decide (1 ≤ t.1.length))).map
        splitThread := by
  simp [Regex.run]

theorem run_lazyStar (p : Nat → Bool) (b : Bool) (s : GoString) :
    (Regex.lazyStar p).run b s = (lazySplits p s).map splitThread := by
  simp [Regex.run]

theorem run_rep (p : Nat → Bool) (lo hi : Nat) (b : Bool) (s : GoString) :
    (Regex.rep p lo hi).run b s =
      ((greedySplits p hi s).filter (fun t => decide (lo ≤ t.1.length))).map splitThread := by
  simp [Regex.run]

theorem run_cap (a : Regex) (b : Bool) (s : GoString) :
    (Regex.cap a).run b s = (a.run b s).map Thread.capture := by
  simp [Regex.run]

/-- Threads of a repetition followed by the end of the text: only the splits
that leave nothing over survive. -/
theorem flatMap_eot (b : Thread → Bool) (l : List (GoString × GoString)) :
    ((l.map splitThread).map Thread.capture).flatMap
        (fun x => (Regex.eot.run (b x) x.rest).map x.andThen) =
      (l.filter (fun t => t.2.isEmpty)).map (fun t => ⟨t.1, [t.1], []⟩) := by
  induction l with
  | nil => rfl
  | cons a l ih =>
    simp only [List.map_cons, List.flatMap_cons, ih]
    obtain ⟨x, r⟩ := a
    cases r with
    | nil => simp [run_eot, splitThread, Thread.capture, Thread.andThen]
    | cons c r => simp [run_eot, splitThread, Thread.capture]

theorem run_flagsRX (b : Bool) (r : GoString) :
    flagsRX.run b r = if isFlags r = true then [⟨r, [r], []⟩] else [] := by
  have h0 : ∀ l : List (GoString × GoString),
      l.filter (fun t => decide (0 ≤ t.1.length)) = l := by
    intro l; simp
  rw [flagsRX, run_seq, run_cap, run_rep, h0,
    flatMap_eot (fun x => b && x.consumed.isEmpty), greedySplits_filter_end]
  by_cases h : r.length ≤ 3 ∧ r.all flagChar = true
  · have h2 : isFlags r = true := by simp [isFlags, h.1, h.2]
    simp only [if_pos h, h2, if_true, List.map_cons, List.map_nil]
  · have h2 : ¬ (isFlags r = true) := by
      intro h3; apply h
      simpa [isFlags] using h3
    simp only [if_neg h, if_neg h2, List.map_nil]

theorem flagChar_bar : flagChar 124 = false := by decide

theorem isFlags_bar (t : GoString) : isFlags (124 :: t) = false := by
  simp [isFlags, flagChar_bar]

theorem run_tailRX (b : Bool) (r : GoString) :
    tailRX.run b r =
      match tailFlags r with
      | some f => [⟨r, [f], []⟩]
      | none => [] := by
  have e : '|'.toNat = 124 := by decide
  rw [tailRX, run_seq, run_opt, e]
  cases r with
  | nil =>
    simp [run_lit_nil, run_flagsRX, tailFlags, isFlags, Thread.andThen]
  | cons c t =>
    rw [run_lit_cons]
    by_cases hc : c = 124
    · subst hc
      by_cases ht : isFlags t = true
      · simp [run_flagsRX, tailFlags, isFlags_bar, ht, Thread.andThen]
      · simp [run_flagsRX, tailFlags, isFlags_bar, ht]
    · by_cases ht : isFlags (c :: t) = true
      · simp [run_flagsRX, tailFlags, hc, ht, Thread.andThen]
      · simp [run_flagsRX, tailFlags, hc, ht]

/-! ### The path group -/

theorem lazyScan_findSome? (r pre : GoString) (g : GoString → GoString → GoString → Thread) :
    (lazySplits anyChar r).findSome?
        (fun t => (tailFlags t.2).map (fun f => g (pre ++ (t.1 ++ t.2)) (pre ++ t.1) f)) =
      some (g (pre ++ r) (pre ++ (lazyScan r).1) (lazyScan r).2) := by
  induction r generalizing pre with
  | nil => simp [lazySplits, lazyScan, tailFlags]
  | cons c t ih =>
    simp only [lazySplits, anyChar, if_true, List.findSome?_cons]
    cases h : tailFlags (c :: t) with
    | some f => simp [lazyScan, h]
    | none =>
      simp only [Option.map_none', List.findSome?_map, lazyScan, h]
      have := ih (pre ++ [c])
      simpa [Function.comp_def, consByte] using this

theorem head?_run_pathRX (b : Bool) (r : GoString) :
    (pathRX.run b r).head? = some ⟨r, [(lazyScan r).1, (lazyScan r).2], []⟩ := by
  rw [pathRX, run_seq, run_cap, run_lazyStar, head?_flatMap_eq_findSome?]
  simp only [List.findSome?_map, Function.comp_def, run_tailRX]
  have h := lazyScan_findSome? r [] (fun s p f => ⟨s, [p, f], []⟩)
  simp only [List.nil_append] at h
  rw [← h]
  congr 1
  funext t
  simp only [splitThread, Thread.capture]
  cases tailFlags t.2 <;> simp [Thread.andThen]

/-! ### The optional colon and the name group -/

theorem head?_run_colonRX (b : Bool) (r : GoString) :
    (colonRX.run b r).head? = some ⟨r, [(afterName r).1, (afterName r).2], []⟩ := by
  have e : ':'.toNat = 58 := by decide
  rw [colonRX, run_seq, run_opt, head?_flatMap_eq_findSome?, e]
  cases r with
  | nil => simp [run_lit_nil, head?_run_pathRX, afterName, Thread.andThen]
  | cons c t =>
    rw [run_lit_cons]
    by_cases hc : c = 58
    · subst hc
      simp [head?_run_pathRX, afterName, Thread.andThen]
    · simp [hc, head?_run_pathRX, afterName, Thread.andThen]

theorem head?_greedySplits (p : Nat → Bool) (hi : Nat) (s : GoString) (h : s.length ≤ hi) :
    (greedySplits p hi s).head? = some (s.takeWhile p, s.dropWhile p) := by
  induction s generalizing hi with
  | nil => cases hi <;> simp [greedySplits]
  | cons c t ih =>
    cases hi with
    | zero => simp at h
    | succ n =>
      have hn : t.length ≤ n := by simpa using h
      by_cases hc : p c = true
      · have := ih n hn
        simp only [greedySplits, hc, if_true, List.takeWhile_cons, List.dropWhile_cons]
        cases hg : greedySplits p n t with
        | nil => rw [hg] at this; simp at this
        | cons a l =>
          rw [hg] at this
          simp only [List.head?_cons, Option.some.injEq] at this
          simp [this, consByte]
      · simp [greedySplits, hc, List.takeWhile_cons, List.dropWhile_cons]

theorem greedySplits_of_takeWhile_nil (p : Nat → Bool) (hi : Nat) (s : GoString)
    (h : s.takeWhile p = []) : greedySplits p hi s = [([], s)] := by
  cases hi with
  | zero => simp [greedySplits]
  | succ n =>
    cases s with
    | nil => simp [greedySplits]
    | cons c t =>
      by_cases hc : p c = true
      · simp [List.takeWhile_cons, hc] at h
      · simp [greedySplits, hc]

theorem head?_run_nameRX (b : Bool) (s : GoString) :
    (nameRX.run b s).head? =
      (decompose s).map (fun d => ⟨s, [d.1, d.2.1, d.2.2], []⟩) := by
  rw [nameRX, run_seq, run_cap, run_plus, head?_flatMap_eq_findSome?]
  by_cases hn : s.takeWhile nameChar = []
  · simp [greedySplits_of_takeWhile_nil nameChar s.length s hn, decompose, hn]
  · have hh := head?_greedySplits nameChar s.length s (Nat.le_refl _)
    cases hg : greedySplits nameChar s.length s with
    | nil => rw [hg] at hh; simp at hh
    | cons a l =>
      rw [hg] at hh
      simp only [List.head?_cons, Option.some.injEq] at hh
      subst hh
      have hpos : 1 ≤ (s.takeWhile nameChar).length := by
        cases h : s.takeWhile nameChar with
        | nil => exact absurd h hn
        | cons x y => simp
      simp [decompose, hn, hpos, head?_run_colonRX, splitThread, Thread.capture,
        Thread.andThen]

theorem run_fullRX_false (s : GoString) : fullRX.run false s = [] := by
  rw [fullRX, run_seq, run_bot]; rfl

theorem head?_run_fullRX_true (s : GoString) :
    (fullRX.run true s).head? =
      (decompose s).map (fun d => ⟨s, [d.1, d.2.1, d.2.2], []⟩) := by
  have h := head?_run_nameRX true s
  have e : fullRX = .seq .bot nameRX := rfl
  rw [e, run_seq, run_bot, head?_flatMap_eq_findSome?]
  simp only [if_true, List.findSome?_cons, List.findSome?_nil, List.head?_map,
    List.isEmpty_nil, Bool.and_self, h]
  cases decompose s <;> simp [Thread.andThen]

theorem findFrom_fullRX_false (s : GoString) : fullRX.findFrom false s = [] := by
  induction s with
  | nil => simp [Regex.findFrom, matchHere_eq_head?, run_fullRX_false]
  | cons c t ih => simp [Regex.findFrom, matchHere_eq_head?, run_fullRX_false, ih]

/-- What `fullRX.FindStringSubmatch` returns, in closed form: the nil slice when
the text does not begin with a name character, and otherwise the whole text
followed by the three fields of `decompose`. -/
theorem fullRX_FindStringSubmatch (s : GoString) :
    fullRX.FindStringSubmatch s =
      match decompose s with
      | some d => [s, d.1, d.2.1, d.2.2]
      | none => [] := by
  unfold Regex.FindStringSubmatch
  cases s with
  | nil =>
    simp [Regex.findFrom, matchHere_eq_head?, head?_run_fullRX_true, decompose]
  | cons c t =>
    simp only [Regex.findFrom, matchHere_eq_head?, head?_run_fullRX_true]
    cases decompose (c :: t) with
    | none => simp [findFrom_fullRX_false]
    | some d => simp

/-! ### `parse` in closed form -/

theorem parse_of_decompose_none {E : Type} (engine : GoString → GoString × Option E)
    (s : GoString) (h : decompose s = none) :
    parse engine s =
      { def_ := colDef.blank, err := some (.invalidColumnDefinition s),
        engineCalls := [], warnings := [] } := by
  simp [parse, fullRX_FindStringSubmatch, h]

theorem parse_of_decompose_some {E : Type} (engine : GoString → GoString × Option E)
    (s n p f : GoString) (h : decompose s = some (n, p, f)) :
    parse engine s =
      match (engine p).2 with
      | some err =>
        { def_ := colDef.blank, err := some (.pathEngine err),
          engineCalls := [p], warnings := [] }
      | none =>
        { def_ := { (newColFlags f).1 with name := n, idx := -1, spec := (engine p).1 },
          err := none, engineCalls := [p], warnings := (newColFlags f).2 } := by
  simp [parse, fullRX_FindStringSubmatch, h]

/-! ### Facts on `decompose` -/

theorem isFlags_of_tailFlags (r f : GoString) (h : tailFlags r = some f) :
    isFlags f = true := by
  cases r with
  | nil => simp [tailFlags] at h; subst h; rfl
  | cons c t =>
    simp only [tailFlags] at h
    split at h
    · rename_i h1
      simp only [Option.some.injEq] at h; subst h; exact h1.2
    · split at h
      · rename_i h2
        simp only [Option.some.injEq] at h; subst h; exact h2
      · simp at h

theorem isFlags_lazyScan (r : GoString) : isFlags (lazyScan r).2 = true := by
  induction r with
  | nil => rfl
  | cons c t ih =>
    simp only [lazyScan]
    cases h : tailFlags (c :: t) with
    | some f => exact isFlags_of_tailFlags _ _ h
    | none => exact ih

theorem isFlags_afterName (r : GoString) : isFlags (afterName r).2 = true := by
  cases r with
  | nil => exact isFlags_lazyScan _
  | cons c t =>
    simp only [afterName]
    split <;> exact isFlags_lazyScan _

theorem takeWhile_append_stop (p : Nat → Bool) (x : GoString) (c : Nat) (t : GoString)
    (hx : ∀ a ∈ x, p a = true) (hc : p c = false) :
    (x ++ c :: t).takeWhile p = x ∧ (x ++ c :: t).dropWhile p = c :: t := by
  induction x with
  | nil => simp [List.takeWhile_cons, List.dropWhile_cons, hc]
  | cons a x ih =>
    have ha : p a = true := hx a (by simp)
    have := ih (fun b hb => hx b (by simp [hb]))
    simp [List.takeWhile_cons, List.dropWhile_cons, ha, this]

theorem tailFlags_bar_inside (a : Nat) (q f : GoString) :
    tailFlags (a :: q ++ 124 :: f) = none := by
  have h1 : isFlags (q ++ 124 :: f) = false := by
    simp [isFlags, flagChar_bar]
  have h2 : isFlags (a :: q ++ 124 :: f) = false := by
    simp [isFlags, flagChar_bar]
  have h2' : isFlags (a :: (q ++ 124 :: f)) = false := h2
  simp [tailFlags, h1, h2']

theorem lazyScan_bar (path f : GoString) (hf : isFlags f = true) :
    lazyScan (path ++ 124 :: f) = (path, f) := by
  induction path with
  | nil => simp [lazyScan, tailFlags, hf]
  | cons a q ih =>
    have h := tailFlags_bar_inside a q f
    have h' : tailFlags (a :: (q ++ 124 :: f)) = none := h
    simp [lazyScan, h', ih]

/-! ## The claims on `newColFlags` -/

/-! ### One step of the loop, field by field -/

theorem step_hide (st : colAttrs × List Nat) (b : Nat) :
    (newColFlagsStep st b).1.hide = (st.1.hide || decide (b = hide)) := by
  unfold newColFlagsStep
  split_ifs <;> simp_all [hide, wide, «show», alignLeft, alignRight, age, number]

theorem step_time (st : colAttrs × List Nat) (b : Nat) :
    (newColFlagsStep st b).1.time = (st.1.time || decide (b = age)) := by
  unfold newColFlagsStep
  split_ifs <;> simp_all [hide, wide, «show», alignLeft, alignRight, age, number]

theorem step_capacity (st : colAttrs × List Nat) (b : Nat) :
    (newColFlagsStep st b).1.capacity = (st.1.capacity || decide (b = number)) := by
  unfold newColFlagsStep
  split_ifs <;> simp_all [hide, wide, «show», alignLeft, alignRight, age, number]

theorem step_wide (st : colAttrs × List Nat) (b : Nat) :
    (newColFlagsStep st b).1.wide =
      if b ∈ [wide, «show»] then decide (b = wide) else st.1.wide := by
  unfold newColFlagsStep
  split_ifs <;> simp_all [hide, wide, «show», alignLeft, alignRight, age, number]

theorem step_show (st : colAttrs × List Nat) (b : Nat) :
    (newColFlagsStep st b).1.show =
      if b ∈ [wide, «show»] then decide (b = «show») else st.1.show := by
  unfold newColFlagsStep
  split_ifs <;> simp_all [hide, wide, «show», alignLeft, alignRight, age, number]

theorem step_align (st : colAttrs × List Nat) (b : Nat) :
    (newColFlagsStep st b).1.align =
      if b ∈ [alignLeft, alignRight, number] then
        (if b = alignLeft then AlignLeft else AlignRight)
      else st.1.align := by
  unfold newColFlagsStep
  split_ifs <;> simp_all [hide, wide, «show», alignLeft, alignRight, age, number]

theorem step_warnings (st : colAttrs × List Nat) (b : Nat) :
    (newColFlagsStep st b).2 = st.2 ++ (if flagChar b = true then [] else [b]) := by
  unfold newColFlagsStep
  split_ifs <;>
    simp_all [hide, wide, «show», alignLeft, alignRight, age, number, flagChar]

theorem step_unknown (st : colAttrs × List Nat) (b : Nat) (h : flagChar b = false) :
    (newColFlagsStep st b).1 = st.1 := by
  unfold newColFlagsStep
  split_ifs <;>
    simp_all [hide, wide, «show», alignLeft, alignRight, age, number, flagChar]

theorem step_fst (st : colAttrs × List Nat) (w : List Nat) (b : Nat) :
    (newColFlagsStep st b).1 = (newColFlagsStep (st.1, w) b).1 := by
  unfold newColFlagsStep
  split_ifs <;> rfl

/-! ### The whole loop -/

theorem foldl_accumulate (proj : colAttrs → Bool) (c : Nat)
    (hstep : ∀ st b, proj (newColFlagsStep st b).1 = (proj st.1 || decide (b = c)))
    (l : GoString) (st : colAttrs × List Nat) :
    proj (l.foldl newColFlagsStep st).1 = (proj st.1 || decide (c ∈ l)) := by
  induction l generalizing st with
  | nil => simp
  | cons b t ih =>
    rw [List.foldl_cons, ih, hstep]
    by_cases h : b = c
    · simp [h]
    · have h' : ¬ c = b := fun e => h e.symm
      simp [h, h']

theorem foldl_last {α : Type} (proj : colAttrs → α) (cs : List Nat) (val : Nat → α)
    (hstep : ∀ st b, proj (newColFlagsStep st b).1 = if b ∈ cs then val b else proj st.1)
    (l : GoString) (st : colAttrs × List Nat) :
    proj (l.foldl newColFlagsStep st).1 =
      match lastAmong cs l with
      | some b => val b
      | none => proj st.1 := by
  induction l generalizing st with
  | nil => simp [lastAmong]
  | cons b t ih =>
    rw [List.foldl_cons, ih, hstep]
    unfold lastAmong
    by_cases h : b ∈ cs
    · simp only [List.filter_cons, h, decide_True, if_true, List.getLast?_cons]
      cases (List.filter (fun b => decide (b ∈ cs)) t).getLast? <;> rfl
    · simp only [List.filter_cons, h, decide_False, if_false]
      rfl

theorem foldl_warnings (l : GoString) (st : colAttrs × List Nat) :
    (l.foldl newColFlagsStep st).2 = st.2 ++ l.filter (fun b => !flagChar b) := by
  induction l generalizing st with
  | nil => simp
  | cons b t ih =>
    rw [List.foldl_cons, ih, step_warnings]
    cases h : flagChar b <;> simp [List.filter_cons, h]

theorem foldl_filter (l : GoString) (st st' : colAttrs × List Nat) (h : st.1 = st'.1) :
    (l.foldl newColFlagsStep st).1 = ((l.filter flagChar).foldl newColFlagsStep st').1 := by
  induction l generalizing st st' with
  | nil => simpa using h
  | cons b t ih =>
    rw [List.foldl_cons]
    cases hb : flagChar b
    · rw [List.filter_cons]
      simp only [hb, Bool.false_eq_true, if_false]
      exact ih _ _ (by rw [step_unknown st b hb, h])
    · rw [List.filter_cons]
      simp only [hb, if_true, List.foldl_cons]
      apply ih
      rw [step_fst st st'.2 b, h]

/-- C2: for every flag string, `newColFlags` never sets `wide` and `show`
together, and the pair is decided by the last `W` or `S` of the string alone:
`wide` holds exactly when that last byte is `W`, `show` exactly when it is `S`,
and both are false when the string has neither; so `WS` gives `show` only and
`SW` gives `wide` only. -/
theorem newColFlags_wide_show (flags : GoString) :
    ¬ ((newColFlags flags).1.wide = true ∧ (newColFlags flags).1.show = true) ∧
    (newColFlags flags).1.wide = decide (lastAmong [wide, «show»] flags = some wide) ∧
    (newColFlags flags).1.show = decide (lastAmong [wide, «show»] flags = some «show») ∧
    ((newColFlags (str "WS")).1.show = true ∧ (newColFlags (str "WS")).1.wide = false) ∧
    ((newColFlags (str "SW")).1.wide = true ∧ (newColFlags (str "SW")).1.show = false) := by
  have hw : (newColFlags flags).1.wide =
      decide (lastAmong [wide, «show»] flags = some wide) := by
    unfold newColFlags
    rw [foldl_last (fun c => c.wide) [wide, «show»] (fun b => decide (b = wide)) step_wide]
    cases lastAmong [wide, «show»] flags <;> simp [colAttrs.zero]
  have hs : (newColFlags flags).1.show =
      decide (lastAmong [wide, «show»] flags = some «show») := by
    unfold newColFlags
    rw [foldl_last (fun c => c.show) [wide, «show»] (fun b => decide (b = «show»)) step_show]
    cases lastAmong [wide, «show»] flags <;> simp [colAttrs.zero]
  refine ⟨?_, hw, hs, by decide, by decide⟩
  rw [hw, hs]
  intro h
  simp only [decide_eq_true_eq] at h
  have := h.1.symm.trans h.2
  simp [wide, «show»] at this

/-- C3: for every flag string, `newColFlags` returns `align = AlignRight`
exactly when the last byte among `L`, `R` and `N` is `R` or `N`, and
`align = AlignLeft` exactly when there is no such byte or the last one is `L`;
`capacity` is true as soon as an `N` occurs, whatever follows it.  So `NL`
gives `capacity` with `AlignLeft` and `N` gives `capacity` with `AlignRight`. -/
theorem newColFlags_align (flags : GoString) :
    ((newColFlags flags).1.align = AlignRight ↔
      (lastAmong [alignLeft, alignRight, number] flags = some alignRight ∨
        lastAmong [alignLeft, alignRight, number] flags = some number)) ∧
    ((newColFlags flags).1.align = AlignLeft ↔
      (lastAmong [alignLeft, alignRight, number] flags = none ∨
        lastAmong [alignLeft, alignRight, number] flags = some alignLeft)) ∧
    (newColFlags flags).1.capacity = decide (number ∈ flags) ∧
    ((newColFlags (str "NL")).1.capacity = true ∧
      (newColFlags (str "NL")).1.align = AlignLeft) ∧
    ((newColFlags (str "N")).1.capacity = true ∧
      (newColFlags (str "N")).1.align = AlignRight) := by
  have ha : (newColFlags flags).1.align =
      match lastAmong [alignLeft, alignRight, number] flags with
      | some b => if b = alignLeft then AlignLeft else AlignRight
      | none => AlignLeft := by
    unfold newColFlags
    rw [foldl_last (fun c => c.align) [alignLeft, alignRight, number]
      (fun b => if b = alignLeft then AlignLeft else AlignRight) step_align]
  have hmem : ∀ b, lastAmong [alignLeft, alignRight, number] flags = some b →
      b = alignLeft ∨ b = alignRight ∨ b = number := by
    intro b hb
    have := List.mem_of_getLast?_eq_some hb
    simpa using (List.mem_filter.mp this).2
  have hc : (newColFlags flags).1.capacity = decide (number ∈ flags) := by
    unfold newColFlags
    rw [foldl_accumulate (fun c => c.capacity) number step_capacity]
    simp [colAttrs.zero]
  refine ⟨?_, ?_, hc, by decide, by decide⟩
  · rw [ha]
    cases h : lastAmong [alignLeft, alignRight, number] flags with
    | none => simp [AlignLeft, AlignRight]
    | some b =>
      rcases hmem b h with rfl | rfl | rfl <;>
        simp [AlignLeft, AlignRight, alignLeft, alignRight, number]
  · rw [ha]
    cases h : lastAmong [alignLeft, alignRight, number] flags with
    | none => simp
    | some b =>
      rcases hmem b h with rfl | rfl | rfl <;>
        simp [AlignLeft, AlignRight, alignLeft, alignRight, number]

/-- C4: for every flag string, the accumulating attributes returned by
`newColFlags` depend only on which bytes occur: `hide` is true exactly when
`H` occurs, `time` exactly when `T` occurs and `capacity` exactly when `N`
occurs; for the empty flag string every attribute has its default value
(`AlignLeft`, every boolean false). -/
theorem newColFlags_accumulate (flags : GoString) :
    (newColFlags flags).1.hide = decide (hide ∈ flags) ∧
    (newColFlags flags).1.time = decide (age ∈ flags) ∧
    (newColFlags flags).1.capacity = decide (number ∈ flags) ∧
    (newColFlags []).1 =
      { align := AlignLeft, mx := false, mxc := false, mxm := false, time := false,
        wide := false, «show» := false, hide := false, capacity := false } := by
  refine ⟨?_, ?_, ?_, rfl⟩
  · unfold newColFlags
    rw [foldl_accumulate (fun c => c.hide) hide step_hide]
    simp [colAttrs.zero]
  · unfold newColFlags
    rw [foldl_accumulate (fun c => c.time) age step_time]
    simp [colAttrs.zero]
  · unfold newColFlags
    rw [foldl_accumulate (fun c => c.capacity) number step_capacity]
    simp [colAttrs.zero]

/-- C5: for every flag string, the bytes outside the flag alphabet are ignored
by `newColFlags` apart from a warning: the attributes returned are those
returned for the string without these bytes, and the warnings logged are
exactly these bytes, one warning for each occurrence and in their order, so
their number is the number of such bytes and none is logged when every byte is
in the alphabet. -/
theorem newColFlags_unknown (flags : GoString) :
    (newColFlags flags).1 = (newColFlags (flags.filter flagChar)).1 ∧
    (newColFlags flags).2 = flags.filter (fun b => !flagChar b) ∧
    (newColFlags flags).2.length = flags.countP (fun b => !flagChar b) ∧
    (newColFlags (flags.filter flagChar)).2 = [] := by
  have hw : (newColFlags flags).2 = flags.filter (fun b => !flagChar b) := by
    unfold newColFlags
    rw [foldl_warnings]; rfl
  refine ⟨?_, hw, ?_, ?_⟩
  · unfold newColFlags
    exact foldl_filter flags _ _ rfl
  · rw [hw, List.countP_eq_length_filter]
  · unfold newColFlags
    rw [foldl_warnings]
    simp [List.filter_filter]

/-! ## The claims on `parse` and `fullRX` -/

theorem str_colon : str ":" = [58] := by decide

theorem str_bar : str "|" = [124] := by decide

theorem nameChar_colon : nameChar 58 = false := by decide

theorem nameChar_bar : nameChar 124 = false := by decide

theorem isFlags_of_forall (flags : GoString) (hlen : flags.length ≤ 3)
    (hflags : ∀ c ∈ flags, flagChar c = true) : isFlags flags = true := by
  simp only [isFlags, Bool.and_eq_true, decide_eq_true_eq, List.all_eq_true]
  exact ⟨hlen, hflags⟩

theorem decompose_wellformed (name path flags : GoString)
    (hne : name ≠ []) (hname : ∀ c ∈ name, nameChar c = true)
    (hlen : flags.length ≤ 3) (hflags : ∀ c ∈ flags, flagChar c = true) :
    decompose (name ++ str ":" ++ path ++ str "|" ++ flags) = some (name, path, flags) := by
  have e : name ++ str ":" ++ path ++ str "|" ++ flags = name ++ 58 :: (path ++ 124 :: flags) := by
    simp [str_colon, str_bar]
  have h := takeWhile_append_stop nameChar name 58 (path ++ 124 :: flags) hname nameChar_colon
  rw [e, decompose, h.1, h.2]
  simp [hne, afterName, lazyScan_bar path flags (isFlags_of_forall flags hlen hflags)]

/-- C1: for every non-empty name made of name characters, every path and every
flag string of at most three flag characters, `parse` applied to
`name ++ ":" ++ path ++ "|" ++ flags` calls the path engine once, with exactly
`path`; and when the engine accepts `path`, `parse` returns no error and a
descriptor whose name is `name`, whose `idx` is `-1` and whose attributes are
those of `newColFlags flags`.  The path is arbitrary: it may be empty, hold
vertical bars or end in flag characters. -/
theorem parse_wellformed {E : Type} (engine : GoString → GoString × Option E)
    (name path flags : GoString)
    (hne : name ≠ []) (hname : ∀ c ∈ name, nameChar c = true)
    (hlen : flags.length ≤ 3) (hflags : ∀ c ∈ flags, flagChar c = true) :
    (parse engine (name ++ str ":" ++ path ++ str "|" ++ flags)).engineCalls = [path] ∧
    ((engine path).2 = none →
      (parse engine (name ++ str ":" ++ path ++ str "|" ++ flags)).err = none ∧
      (parse engine (name ++ str ":" ++ path ++ str "|" ++ flags)).def_.name = name ∧
      (parse engine (name ++ str ":" ++ path ++ str "|" ++ flags)).def_.idx = -1 ∧
      (parse engine (name ++ str ":" ++ path ++ str "|" ++ flags)).def_.tocolAttrs =
        (newColFlags flags).1) := by
  rw [parse_of_decompose_some engine _ name path flags
    (decompose_wellformed name path flags hne hname hlen hflags)]
  cases h : (engine path).2 with
  | some e => simp
  | none => simp

/-- Witness of C1: the name `AGE`, the path `.a|bN` (which holds a vertical bar
and ends in a flag character) and the flags `TW`. -/
theorem parse_wellformed_witness :
    (parse engineAcceptAll (str "AGE:.a|bN|TW")).engineCalls = [str ".a|bN"] ∧
    (parse engineAcceptAll (str "AGE:.a|bN|TW")).err = none ∧
    (parse engineAcceptAll (str "AGE:.a|bN|TW")).def_.name = str "AGE" ∧
    (parse engineAcceptAll (str "AGE:.a|bN|TW")).def_.idx = -1 ∧
    (parse engineAcceptAll (str "AGE:.a|bN|TW")).def_.tocolAttrs =
      (newColFlags (str "TW")).1 := by
  have h := parse_wellformed engineAcceptAll (str "AGE") (str ".a|bN") (str "TW")
    (by decide) (by decide) (by decide) (by decide)
  have e : str "AGE" ++ str ":" ++ str ".a|bN" ++ str "|" ++ str "TW" = str "AGE:.a|bN|TW" := by
    decide
  rw [e] at h
  exact ⟨h.1, h.2 rfl⟩

theorem decompose_unknown_flag (name : GoString) (c : Nat)
    (hne : name ≠ []) (hname : ∀ a ∈ name, nameChar a = true)
    (hc : flagChar c = false) (hbar : c ≠ 124) :
    decompose (name ++ str "|" ++ [c]) = some (name, str "|" ++ [c], []) := by
  have e : name ++ str "|" ++ [c] = name ++ 124 :: [c] := by simp [str_bar]
  have h := takeWhile_append_stop nameChar name 124 [c] hname nameChar_bar
  have h1 : isFlags [c] = false := by simp [isFlags, hc]
  have h2 : isFlags [124, c] = false := isFlags_bar [c]
  rw [e, decompose, h.1, h.2]
  simp [hne, afterName, lazyScan, tailFlags, h1, h2, hbar, str_bar]

/-- Counterexample to C6: `parse` applied to `X|Q`, with a path engine that
accepts every path, logs no warning at all (so none for `Q`, which is outside
the flag alphabet): the grammar takes `|Q` as the path expression, hands it to
the path engine and leaves the flag field empty. -/
theorem parse_unknown_flag_counterexample :
    flagChar 'Q'.toNat = false ∧
    ¬ ('Q'.toNat ∈ (parse engineAcceptAll (str "X|Q")).warnings) ∧
    (parse engineAcceptAll (str "X|Q")).warnings = [] ∧
    (parse engineAcceptAll (str "X|Q")).engineCalls = [str "|Q"] ∧
    fullRX.FindStringSubmatch (str "X|Q") = [str "X|Q", str "X", str "|Q", str ""] := by
  decide

/-- C6, amended: for every non-empty name made of name characters and every
byte `c` outside the flag alphabet other than the vertical bar, `parse` applied
to `name ++ "|" ++ [c]` logs no warning: the grammar takes `"|" ++ [c]` as the
path expression and leaves the flag field empty, so the path engine is called
with `"|" ++ [c]`; when the engine accepts it, `parse` returns no error, the
name is `name` and every attribute has its default value (`AlignLeft`, every
boolean false). -/
theorem parse_unknown_flag {E : Type} (engine : GoString → GoString × Option E)
    (name : GoString) (c : Nat)
    (hne : name ≠ []) (hname : ∀ a ∈ name, nameChar a = true)
    (hc : flagChar c = false) (hbar : c ≠ '|'.toNat) :
    (parse engine (name ++ str "|" ++ [c])).warnings = [] ∧
    (parse engine (name ++ str "|" ++ [c])).engineCalls = [str "|" ++ [c]] ∧
    ((engine (str "|" ++ [c])).2 = none →
      (parse engine (name ++ str "|" ++ [c])).err = none ∧
      (parse engine (name ++ str "|" ++ [c])).def_.name = name ∧
      (parse engine (name ++ str "|" ++ [c])).def_.tocolAttrs =
        { align := AlignLeft, mx := false, mxc := false, mxm := false, time := false,
          wide := false, «show» := false, hide := false, capacity := false }) := by
  rw [parse_of_decompose_some engine _ name (str "|" ++ [c]) []
    (decompose_unknown_flag name c hne hname hc hbar)]
  cases h : (engine (str "|" ++ [c])).2 with
  | some e => simp
  | none =>
    refine ⟨rfl, rfl, fun _ => ⟨rfl, rfl, rfl⟩⟩

/-- Witness of the amended C6: the specification `X|Q`. -/
theorem parse_unknown_flag_witness :
    (parse engineAcceptAll (str "X" ++ str "|" ++ ['Q'.toNat])).warnings = [] ∧
    (parse engineAcceptAll (str "X" ++ str "|" ++ ['Q'.toNat])).engineCalls =
      [str "|" ++ ['Q'.toNat]] ∧
    (parse engineAcceptAll (str "X" ++ str "|" ++ ['Q'.toNat])).err = none ∧
    (parse engineAcceptAll (str "X" ++ str "|" ++ ['Q'.toNat])).def_.name = str "X" ∧
    (parse engineAcceptAll (str "X" ++ str "|" ++ ['Q'.toNat])).def_.tocolAttrs =
      { align := AlignLeft, mx := false, mxc := false, mxm := false, time := false,
        wide := false, «show» := false, hide := false, capacity := false } :=
  have h := parse_unknown_flag engineAcceptAll (str "X") 'Q'.toNat
    (by decide) (by decide) (by decide) (by decide)
  ⟨h.1, h.2.1, h.2.2 rfl⟩

theorem decompose_eq_none_iff (s : GoString) :
    decompose s = none ↔ (s = [] ∨ ∃ c t, s = c :: t ∧ nameChar c = false) := by
  cases s with
  | nil => simp [decompose]
  | cons c t =>
    cases hc : nameChar c <;> simp [decompose, List.takeWhile_cons, hc]

theorem FindStringSubmatch_length (s : GoString) :
    (fullRX.FindStringSubmatch s).length = 4 ↔ decompose s ≠ none := by
  rw [fullRX_FindStringSubmatch]
  cases decompose s <;> simp

theorem FindStringSubmatch_nil_iff (s : GoString) :
    fullRX.FindStringSubmatch s = [] ↔ decompose s = none := by
  rw [fullRX_FindStringSubmatch]
  cases decompose s <;> simp

/-- C7: `parse` fails with the error "invalid column definition" exactly when
`fullRX` does not match, which is exactly when the text is empty or begins
with a byte that is not a name character; the path engine is not called then
and the result is the blank descriptor with that error.  In particular this is
what `parse` returns for `***not-a-spec***`. -/
theorem parse_malformed_iff {E : Type} (engine : GoString → GoString × Option E)
    (s : GoString) :
    ((∃ t, (parse engine s).err = some (.invalidColumnDefinition t)) ↔
      fullRX.FindStringSubmatch s = []) ∧
    (fullRX.FindStringSubmatch s = [] ↔ (fullRX.FindStringSubmatch s).length ≠ 4) ∧
    (fullRX.FindStringSubmatch s = [] ↔
      (s = [] ∨ ∃ c t, s = c :: t ∧ nameChar c = false)) ∧
    (fullRX.FindStringSubmatch s = [] ↔
      parse engine s =
        { def_ := colDef.blank, err := some (.invalidColumnDefinition s),
          engineCalls := [], warnings := [] }) ∧
    parse engine (str "***not-a-spec***") =
      { def_ := colDef.blank, err := some (.invalidColumnDefinition (str "***not-a-spec***")),
        engineCalls := [], warnings := [] } := by
  have hlast : parse engine (str "***not-a-spec***") =
      { def_ := colDef.blank,
        err := some (.invalidColumnDefinition (str "***not-a-spec***")),
        engineCalls := [], warnings := [] } :=
    parse_of_decompose_none engine _ (by decide)
  refine ⟨?_, ?_, ?_, ?_, hlast⟩
  · rw [FindStringSubmatch_nil_iff]
    cases h : decompose s with
    | none => simp [parse_of_decompose_none engine s h]
    | some d =>
      obtain ⟨n, p, f⟩ := d
      rw [parse_of_decompose_some engine s n p f h]
      cases (engine p).2 <;> simp
  · rw [FindStringSubmatch_nil_iff, Ne, FindStringSubmatch_length]
    simp
  · rw [FindStringSubmatch_nil_iff, decompose_eq_none_iff]
  · rw [FindStringSubmatch_nil_iff]
    cases h : decompose s with
    | none => simp [parse_of_decompose_none engine s h]
    | some d =>
      obtain ⟨n, p, f⟩ := d
      rw [parse_of_decompose_some engine s n p f h]
      cases (engine p).2 <;> simp

/-- C8: when `fullRX` matches, the error returned by `parse` is exactly the
error returned by the path engine for the captured path expression: the
engine's error, unchanged, when the engine rejects the path, and no error when
it accepts it.  So a specification that the grammar decomposes fails only if,
and whenever, the engine rejects its path. -/
theorem parse_engine_error {E : Type} (engine : GoString → GoString × Option E)
    (s : GoString) (hm : (fullRX.FindStringSubmatch s).length = 4) :
    (parse engine s).err =
      (engine ((fullRX.FindStringSubmatch s).getD 2 [])).2.map ParseError.pathEngine := by
  cases h : decompose s with
  | none => exact absurd h ((FindStringSubmatch_length s).mp hm)
  | some d =>
    obtain ⟨n, p, f⟩ := d
    rw [parse_of_decompose_some engine s n p f h, fullRX_FindStringSubmatch, h]
    cases he : (engine p).2 <;> simp [he]

/-- Witness of C8: the specification `NAME:$invalid[[path` with a path engine
that rejects square brackets. -/
theorem parse_engine_error_witness :
    (fullRX.FindStringSubmatch (str "NAME:$invalid[[path")).length = 4 ∧
    (parse engineNoBracket (str "NAME:$invalid[[path")).err =
      (engineNoBracket
        ((fullRX.FindStringSubmatch (str "NAME:$invalid[[path")).getD 2 [])).2.map
        ParseError.pathEngine :=
  ⟨by decide, parse_engine_error engineNoBracket (str "NAME:$invalid[[path") (by decide)⟩

/-- C9: whenever `parse` returns an error, the descriptor returned with it is
the blank one: empty name, empty path specification, `AlignLeft`, every
boolean attribute false and `idx = -1`; nothing of the input is in it, also
when the error comes from the path engine after the name and the flags were
captured. -/
theorem parse_error_blank {E : Type} (engine : GoString → GoString × Option E)
    (s : GoString) (herr : (parse engine s).err ≠ none) :
    (parse engine s).def_ =
      { align := AlignLeft, mx := false, mxc := false, mxm := false, time := false,
        wide := false, «show» := false, hide := false, capacity := false,
        name := [], idx := -1, spec := [] } := by
  cases h : decompose s with
  | none => rw [parse_of_decompose_none engine s h]; rfl
  | some d =>
    obtain ⟨n, p, f⟩ := d
    rw [parse_of_decompose_some engine s n p f h] at herr ⊢
    cases he : (engine p).2 with
    | none => rw [he] at herr; simp at herr
    | some e => rfl

/-- Witness of C9: the specification `NAME:[x|WS`, whose name and flags are
captured and whose path a bracket-rejecting engine refuses. -/
theorem parse_error_blank_witness :
    (parse engineNoBracket (str "NAME:[x|WS")).err ≠ none ∧
    (parse engineNoBracket (str "NAME:[x|WS")).def_ =
      { align := AlignLeft, mx := false, mxc := false, mxm := false, time := false,
        wide := false, «show» := false, hide := false, capacity := false,
        name := [], idx := -1, spec := [] } :=
  ⟨by decide, parse_error_blank engineNoBracket (str "NAME:[x|WS") (by decide)⟩

theorem flagChar_iff_mem (c : Nat) : flagChar c = true ↔ c ∈ str "NTWSLRH" := by
  have e : str "NTWSLRH" = [78, 84, 87, 83, 76, 82, 72] := by decide
  rw [e]
  simp [flagChar, or_assoc]

/-- C10: whenever `fullRX` matches, the flag field it captures, which `parse`
passes to `newColFlags`, has at most three bytes, all from the alphabet
`NTWSLRH`; `newColFlags` logs no warning for it and `parse` logs none, that
is, the branch of the unknown attribute is not taken. -/
theorem parse_flags_in_alphabet {E : Type} (engine : GoString → GoString × Option E)
    (s : GoString) (hm : (fullRX.FindStringSubmatch s).length = 4) :
    ((fullRX.FindStringSubmatch s).getD 3 []).length ≤ 3 ∧
    (∀ c ∈ (fullRX.FindStringSubmatch s).getD 3 [], c ∈ str "NTWSLRH") ∧
    (newColFlags ((fullRX.FindStringSubmatch s).getD 3 [])).2 = [] ∧
    (parse engine s).warnings = [] := by
  cases h : decompose s with
  | none => exact absurd h ((FindStringSubmatch_length s).mp hm)
  | some d =>
    obtain ⟨n, p, f⟩ := d
    have hf : isFlags f = true := by
      have h1 := isFlags_afterName (s.dropWhile nameChar)
      unfold decompose at h
      split at h
      · simp at h
      · simp only [Option.some.injEq, Prod.mk.injEq] at h
        rw [h.2] at h1
        exact h1
    have hf' : f.length ≤ 3 ∧ ∀ c ∈ f, flagChar c = true := by
      simpa [isFlags] using hf
    have hw : (newColFlags f).2 = [] := by
      unfold newColFlags
      rw [foldl_warnings]
      simpa using hf'.2
    rw [parse_of_decompose_some engine s n p f h, fullRX_FindStringSubmatch, h]
    refine ⟨hf'.1, fun c hc => (flagChar_iff_mem c).mp (hf'.2 c hc), hw, ?_⟩
    cases (engine p).2 <;> simp [hw]

/-- Witness of C10: the specification `X:.spec.TTL`, whose flag field is `TTL`. -/
theorem parse_flags_in_alphabet_witness :
    (fullRX.FindStringSubmatch (str "X:.spec.TTL")).length = 4 ∧
    ((fullRX.FindStringSubmatch (str "X:.spec.TTL")).getD 3 []).length ≤ 3 ∧
    (∀ c ∈ (fullRX.FindStringSubmatch (str "X:.spec.TTL")).getD 3 [], c ∈ str "NTWSLRH") ∧
    (newColFlags ((fullRX.FindStringSubmatch (str "X:.spec.TTL")).getD 3 [])).2 = [] ∧
    (parse engineAcceptAll (str "X:.spec.TTL")).warnings = [] :=
  ⟨by decide, parse_flags_in_alphabet engineAcceptAll (str "X:.spec.TTL") (by decide)⟩

/-! ## Further claims on `parse` and `fullRX` -/

theorem decompose_some_facts (s n p f : GoString) (h : decompose s = some (n, p, f)) :
    n = s.takeWhile nameChar ∧ n ≠ [] ∧ (p, f) = afterName (s.dropWhile nameChar) := by
  unfold decompose at h
  split at h
  · simp at h
  · rename_i hne
    simp only [Option.some.injEq, Prod.mk.injEq] at h
    refine ⟨h.1.symm, ?_, ?_⟩
    · rw [← h.1]; exact hne
    · rw [← h.2]

theorem length_le_takeWhile_of_prefix (q : Nat → Bool) (p s : GoString)
    (hp : p <+: s) (hall : ∀ c ∈ p, q c = true) :
    p.length ≤ (s.takeWhile q).length := by
  induction p generalizing s with
  | nil => simp
  | cons a p ih =>
    cases s with
    | nil => simp at hp
    | cons b t =>
      obtain ⟨hab, hpt⟩ := List.cons_prefix_cons.mp hp
      subst hab
      have ha : q a = true := hall a (by simp)
      have := ih t hpt (fun c hc => hall c (by simp [hc]))
      simp [List.takeWhile_cons, ha, this]

/-- C11: whenever `parse` returns no error, the name of the descriptor is not
empty, is made of name characters only and is the longest prefix of the text
made of such characters (it is `takeWhile nameChar` of the text, and no prefix
of name characters is longer).  So the text `STATUS`, made of name characters
only, gives the name `STATUS`, an empty path and no flags, although it ends in
letters of the flag alphabet. -/
theorem parse_name_longest {E : Type} (engine : GoString → GoString × Option E)
    (s : GoString) (hok : (parse engine s).err = none) :
    (parse engine s).def_.name ≠ [] ∧
    (∀ c ∈ (parse engine s).def_.name, nameChar c = true) ∧
    (parse engine s).def_.name = s.takeWhile nameChar ∧
    (parse engine s).def_.name <+: s ∧
    (∀ p : GoString, p <+: s → (∀ c ∈ p, nameChar c = true) →
      p.length ≤ (parse engine s).def_.name.length) ∧
    fullRX.FindStringSubmatch (str "STATUS") = [str "STATUS", str "STATUS", [], []] := by
  cases h : decompose s with
  | none =>
    rw [parse_of_decompose_none engine s h] at hok
    simp at hok
  | some d =>
    obtain ⟨n, p, f⟩ := d
    obtain ⟨hn, hne, -⟩ := decompose_some_facts s n p f h
    have hname : (parse engine s).def_.name = n := by
      rw [parse_of_decompose_some engine s n p f h] at hok ⊢
      cases he : (engine p).2 with
      | some e => rw [he] at hok; simp at hok
      | none => rfl
    rw [hname]
    refine ⟨hne, ?_, hn, ?_, ?_, by decide⟩
    · intro c hc
      rw [hn] at hc
      exact List.mem_takeWhile_imp hc
    · rw [hn]; exact List.takeWhile_prefix _
    · intro q hq hall
      rw [hn]
      exact length_le_takeWhile_of_prefix nameChar q s hq hall

/-- Witness of C11: the text `STATUS` with an engine that accepts every path. -/
theorem parse_name_longest_witness :
    (parse engineAcceptAll (str "STATUS")).err = none ∧
    (parse engineAcceptAll (str "STATUS")).def_.name = (str "STATUS").takeWhile nameChar :=
  ⟨by decide, (parse_name_longest engineAcceptAll (str "STATUS") (by decide)).2.2.1⟩

/-- C12: when `fullRX` matches a text and captures the fields name, path and
flags, the text `name ++ ":" ++ path ++ "|" ++ flags` is matched again and
gives the same three fields, whether or not the first text held the
separators. -/
theorem fullRX_rejoin (s : GoString) (hm : (fullRX.FindStringSubmatch s).length = 4) :
    fullRX.FindStringSubmatch
        ((fullRX.FindStringSubmatch s).getD 1 [] ++ str ":" ++
          (fullRX.FindStringSubmatch s).getD 2 [] ++ str "|" ++
          (fullRX.FindStringSubmatch s).getD 3 []) =
      [(fullRX.FindStringSubmatch s).getD 1 [] ++ str ":" ++
          (fullRX.FindStringSubmatch s).getD 2 [] ++ str "|" ++
          (fullRX.FindStringSubmatch s).getD 3 [],
        (fullRX.FindStringSubmatch s).getD 1 [],
        (fullRX.FindStringSubmatch s).getD 2 [],
        (fullRX.FindStringSubmatch s).getD 3 []] := by
  cases h : decompose s with
  | none => exact absurd h ((FindStringSubmatch_length s).mp hm)
  | some d =>
    obtain ⟨n, p, f⟩ := d
    obtain ⟨hn, hne, hpf⟩ := decompose_some_facts s n p f h
    have hf : isFlags f = true := by
      have h1 := isFlags_afterName (s.dropWhile nameChar)
      rw [← hpf] at h1
      exact h1
    have hf' : f.length ≤ 3 ∧ ∀ c ∈ f, flagChar c = true := by
      simpa [isFlags] using hf
    have hname : ∀ c ∈ n, nameChar c = true := by
      intro c hc
      rw [hn] at hc
      exact List.mem_takeWhile_imp hc
    have hd := decompose_wellformed n p f hne hname hf'.1 hf'.2
    have e : fullRX.FindStringSubmatch s = [s, n, p, f] := by
      rw [fullRX_FindStringSubmatch, h]
    rw [e]
    simp only [List.getD_cons_succ, List.getD_cons_zero]
    rw [fullRX_FindStringSubmatch, hd]

/-- Witness of C12: the text `X:.spec.TTL`, which has no vertical bar. -/
theorem fullRX_rejoin_witness :
    (fullRX.FindStringSubmatch (str "X:.spec.TTL")).length = 4 ∧
    fullRX.FindStringSubmatch (str "X:.spec.|TTL") =
      [str "X:.spec.|TTL", str "X", str ".spec.", str "TTL"] := by
  have h := fullRX_rejoin (str "X:.spec.TTL") (by decide)
  have e : fullRX.FindStringSubmatch (str "X:.spec.TTL") =
      [str "X:.spec.TTL", str "X", str ".spec.", str "TTL"] := by decide
  rw [e] at h
  exact ⟨by decide, h⟩

theorem step_mx (st : colAttrs × List Nat) (b : Nat) :
    (newColFlagsStep st b).1.mx = st.1.mx ∧ (newColFlagsStep st b).1.mxc = st.1.mxc ∧
    (newColFlagsStep st b).1.mxm = st.1.mxm := by
  unfold newColFlagsStep
  split_ifs <;> simp

theorem foldl_mx (l : GoString) (st : colAttrs × List Nat) :
    (l.foldl newColFlagsStep st).1.mx = st.1.mx ∧
    (l.foldl newColFlagsStep st).1.mxc = st.1.mxc ∧
    (l.foldl newColFlagsStep st).1.mxm = st.1.mxm := by
  induction l generalizing st with
  | nil => simp
  | cons b t ih =>
    rw [List.foldl_cons]
    obtain ⟨h1, h2, h3⟩ := ih (newColFlagsStep st b)
    obtain ⟨g1, g2, g3⟩ := step_mx st b
    exact ⟨h1.trans g1, h2.trans g2, h3.trans g3⟩

theorem parse_mx {E : Type} (engine : GoString → GoString × Option E) (s : GoString) :
    (parse engine s).def_.mx = false ∧ (parse engine s).def_.mxc = false ∧
    (parse engine s).def_.mxm = false := by
  cases h : decompose s with
  | none => rw [parse_of_decompose_none engine s h]; exact ⟨rfl, rfl, rfl⟩
  | some d =>
    obtain ⟨n, p, f⟩ := d
    rw [parse_of_decompose_some engine s n p f h]
    cases he : (engine p).2 with
    | some e => exact ⟨rfl, rfl, rfl⟩
    | none => exact foldl_mx f _

/-- C13: the reserved fields are never set: for every flag string
`newColFlags` returns `mx`, `mxc` and `mxm` all false, and for every text and
every path engine (so whenever `parse` succeeds) the descriptor returned by
`parse` and the header column that `toHeaderCol` makes of it have `MX`, `MXC`
and `MXM` all false. -/
theorem reserved_never_set {E : Type} (engine : GoString → GoString × Option E)
    (flags s : GoString) :
    ((newColFlags flags).1.mx = false ∧ (newColFlags flags).1.mxc = false ∧
      (newColFlags flags).1.mxm = false) ∧
    ((parse engine s).def_.mx = false ∧ (parse engine s).def_.mxc = false ∧
      (parse engine s).def_.mxm = false) ∧
    ((parse engine s).def_.toHeaderCol.Attrs.MX = false ∧
      (parse engine s).def_.toHeaderCol.Attrs.MXC = false ∧
      (parse engine s).def_.toHeaderCol.Attrs.MXM = false) :=
  ⟨foldl_mx flags _, parse_mx engine s, parse_mx engine s⟩

theorem lazyScan_split (u v : GoString) (hbar : 124 ∉ u ++ v) (hv : isFlags v = true)
    (hu : u = [] ∨ v.length = 3 ∨ ∃ x, u.getLast? = some x ∧ flagChar x = false) :
    lazyScan (u ++ v) = (u, v) := by
  induction u with
  | nil =>
    cases v with
    | nil => rfl
    | cons c t =>
      have hc : c ≠ 124 := by
        intro e; apply hbar; simp [e]
      simp [lazyScan, tailFlags, hc, hv]
  | cons a u ih =>
    have ha : a ≠ 124 := by
      intro e; apply hbar; simp [e]
    have hnot : isFlags (a :: (u ++ v)) = false := by
      rcases hu with h | h | ⟨x, hx, hxf⟩
      · simp at h
      · simp only [isFlags, List.length_cons, List.length_append, h]
        simp
      · have hmem : x ∈ a :: u := List.mem_of_getLast?_eq_some hx
        have hmem' : x ∈ a :: (u ++ v) := by
          rcases List.mem_cons.mp hmem with h | h
          · simp [h]
          · simp [h]
        have : (a :: (u ++ v)).all flagChar = false := by
          rw [List.all_eq_false]
          exact ⟨x, hmem', by simp [hxf]⟩
        simp [isFlags, this]
    have hu' : u = [] ∨ v.length = 3 ∨ ∃ x, u.getLast? = some x ∧ flagChar x = false := by
      rcases hu with h | h | ⟨x, hx, hxf⟩
      · simp at h
      · exact Or.inr (Or.inl h)
      · cases u with
        | nil => exact Or.inl rfl
        | cons b w =>
          rw [List.getLast?_cons_cons] at hx
          exact Or.inr (Or.inr ⟨x, hx, hxf⟩)
    have hbar' : 124 ∉ u ++ v := by
      intro h; apply hbar; simp at h ⊢; tauto
    have hih := ih hbar' hu'
    have e : (a :: u) ++ v = a :: (u ++ v) := rfl
    rw [e]
    simp [lazyScan, tailFlags, ha, hnot, hih]

theorem rdropWhile_append_rtakeWhile (p : Nat → Bool) (l : GoString) :
    l.rdropWhile p ++ l.rtakeWhile p = l := by
  unfold List.rdropWhile List.rtakeWhile
  rw [← List.reverse_append, List.takeWhile_append_dropWhile, List.reverse_reverse]

theorem lazyScan_noBar (path : GoString) (hbar : 124 ∉ path) :
    lazyScan path =
      (path.take (path.length - min 3 (path.rtakeWhile flagChar).length),
        path.drop (path.length - min 3 (path.rtakeWhile flagChar).length)) := by
  have hsplit := rdropWhile_append_rtakeWhile flagChar path
  have hw : ∀ c ∈ path.rtakeWhile flagChar, flagChar c = true := by
    intro c hc
    unfold List.rtakeWhile at hc
    exact List.mem_takeWhile_imp (List.mem_reverse.mp hc)
  have hd : path.rdropWhile flagChar = [] ∨
      ∃ x, (path.rdropWhile flagChar).getLast? = some x ∧ flagChar x = false := by
    by_cases h : path.rdropWhile flagChar = []
    · exact Or.inl h
    · refine Or.inr ⟨(path.rdropWhile flagChar).getLast h, List.getLast?_eq_getLast _ h, ?_⟩
      have := List.rdropWhile_last_not flagChar path h
      simpa using this
  generalize path.rdropWhile flagChar = d at hsplit hd
  generalize path.rtakeWhile flagChar = w at hsplit hw
  subst hsplit
  by_cases hlen : w.length ≤ 3
  · have e1 : (d ++ w).length - min 3 w.length = d.length := by
      simp only [List.length_append]; omega
    rw [e1, List.take_left', List.drop_left']
    · apply lazyScan_split d w hbar (isFlags_of_forall w hlen hw)
      rcases hd with h | h
      · exact Or.inl h
      · exact Or.inr (Or.inr h)
    · rfl
    · rfl
  · have hlen' : 3 < w.length := by omega
    have e1 : (d ++ w).length - min 3 w.length = d.length + (w.length - 3) := by
      simp only [List.length_append]; omega
    have e2 : (d ++ w).take (d.length + (w.length - 3)) = d ++ w.take (w.length - 3) := by
      rw [List.take_append_eq_append_take]
      simp
    have e3 : (d ++ w).drop (d.length + (w.length - 3)) = w.drop (w.length - 3) := by
      rw [List.drop_append_eq_append_drop]
      simp
    rw [e1, e2, e3]
    have e4 : d ++ w = (d ++ w.take (w.length - 3)) ++ w.drop (w.length - 3) := by
      rw [List.append_assoc, List.take_append_drop]
    have hv : isFlags (w.drop (w.length - 3)) = true := by
      apply isFlags_of_forall
      · simp only [List.length_drop]; omega
      · intro c hc
        exact hw c (List.mem_of_mem_drop hc)
    have h3 : (w.drop (w.length - 3)).length = 3 := by
      simp only [List.length_drop]; omega
    have := lazyScan_split (d ++ w.take (w.length - 3)) (w.drop (w.length - 3))
      (by rw [← e4]; exact hbar) hv (Or.inr (Or.inl h3))
    rw [← e4] at this
    exact this

theorem decompose_noBar (name path : GoString)
    (hne : name ≠ []) (hname : ∀ c ∈ name, nameChar c = true) (hbar : 124 ∉ path) :
    decompose (name ++ str ":" ++ path) =
      some (name, path.take (path.length - min 3 (path.rtakeWhile flagChar).length),
        path.drop (path.length - min 3 (path.rtakeWhile flagChar).length)) := by
  have e : name ++ str ":" ++ path = name ++ 58 :: path := by simp [str_colon]
  have h := takeWhile_append_stop nameChar name 58 path hname nameChar_colon
  rw [e, decompose, h.1, h.2]
  simp [hne, afterName, lazyScan_noBar path hbar]

/-- C15: when a specification has no vertical bar, the flag characters at the
end of the path are taken as flags: for every non-empty name made of name
characters and every path without a vertical bar, `parse` applied to
`name ++ ":" ++ path` calls the path engine with `path` without its last
`min 3 k` bytes, where `k` is the number of consecutive flag characters at the
end of `path`, and, when the engine accepts, returns the attributes of
`newColFlags` applied to these removed bytes.  So `X:.spec.TTL` compiles the
path `.spec.` with the flags `TTL`. -/
theorem parse_no_bar {E : Type} (engine : GoString → GoString × Option E)
    (name path : GoString)
    (hne : name ≠ []) (hname : ∀ c ∈ name, nameChar c = true)
    (hbar : '|'.toNat ∉ path) :
    (parse engine (name ++ str ":" ++ path)).engineCalls =
      [path.take (path.length - min 3 (path.rtakeWhile flagChar).length)] ∧
    ((engine (path.take (path.length - min 3 (path.rtakeWhile flagChar).length))).2 = none →
      (parse engine (name ++ str ":" ++ path)).err = none ∧
      (parse engine (name ++ str ":" ++ path)).def_.name = name ∧
      (parse engine (name ++ str ":" ++ path)).def_.tocolAttrs =
        (newColFlags
          (path.drop (path.length - min 3 (path.rtakeWhile flagChar).length))).1) ∧
    fullRX.FindStringSubmatch (str "X:.spec.TTL") =
      [str "X:.spec.TTL", str "X", str ".spec.", str "TTL"] := by
  rw [parse_of_decompose_some engine _ _ _ _ (decompose_noBar name path hne hname hbar)]
  refine ⟨?_, ?_, by decide⟩
  · cases (engine (path.take (path.length - min 3 (path.rtakeWhile flagChar).length))).2 <;>
      rfl
  · intro h
    rw [h]
    exact ⟨rfl, rfl, rfl⟩

/-- Witness of C15: the specification `X:.spec.TTL`. -/
theorem parse_no_bar_witness :
    (parse engineAcceptAll (str "X:.spec.TTL")).engineCalls = [str ".spec."] ∧
    (parse engineAcceptAll (str "X:.spec.TTL")).err = none ∧
    (parse engineAcceptAll (str "X:.spec.TTL")).def_.name = str "X" ∧
    (parse engineAcceptAll (str "X:.spec.TTL")).def_.tocolAttrs =
      (newColFlags (str "TTL")).1 := by
  have h := parse_no_bar engineAcceptAll (str "X") (str ".spec.TTL")
    (by decide) (by decide) (by decide)
  have e : str "X" ++ str ":" ++ str ".spec.TTL" = str "X:.spec.TTL" := by decide
  have e1 : (str ".spec.TTL").take
      ((str ".spec.TTL").length - min 3 ((str ".spec.TTL").rtakeWhile flagChar).length) =
      str ".spec." := by decide
  have e2 : (str ".spec.TTL").drop
      ((str ".spec.TTL").length - min 3 ((str ".spec.TTL").rtakeWhile flagChar).length) =
      str "TTL" := by decide
  rw [e, e1, e2] at h
  exact ⟨h.1, h.2.1 rfl⟩

end Render

/-! # Proofs for `ns.go` -/

namespace Data

open Render (GoString str)

theorem addFav_loop (l : List GoString) (k : Nat) (acc : List GoString) :
    (l.enumFrom k).foldl addFavStep acc = acc ++ l.take (8 - k) := by
  induction l generalizing k acc with
  | nil => simp
  | cons a l ih =>
    rw [List.enumFrom_cons, List.foldl_cons, ih]
    unfold addFavStep MaxFavoritesNS
    by_cases h : k + 1 < 9
    · have e : 8 - k = (8 - (k + 1)) + 1 := by omega
      simp only [h, if_true]
      rw [e, List.take_succ_cons]
      simp
    · have e1 : 8 - (k + 1) = 0 := by omega
      have e2 : 8 - k = 0 := by omega
      simp [h, e1, e2]

theorem addFavNS_Favorites (n : Namespace) (ns : GoString) :
    (addFavNS n ns).Favorites =
      if ns ∈ n.Favorites then n.Favorites else ns :: n.Favorites.take 8 := by
  unfold addFavNS
  by_cases h : ns ∈ n.Favorites
  · simp [h]
  · rw [List.enum, addFav_loop]
    simp [h]

theorem addFavNS_frame (n : Namespace) (ns : GoString) :
    (addFavNS n ns).Active = n.Active ∧ (addFavNS n ns).LockFavorites = n.LockFavorites := by
  unfold addFavNS
  split <;> exact ⟨rfl, rfl⟩

theorem trimFavNs_Favorites (n : Namespace) :
    (trimFavNs n).Favorites = n.Favorites.take 9 := by
  unfold trimFavNs MaxFavoritesNS
  split
  · rfl
  · rw [List.take_of_length_le (by omega)]

theorem trimFavNs_frame (n : Namespace) :
    (trimFavNs n).Active = n.Active ∧ (trimFavNs n).LockFavorites = n.LockFavorites := by
  unfold trimFavNs
  split <;> exact ⟨rfl, rfl⟩

theorem victim_lt (ns : GoString) (l : List GoString) (v : Nat) (h : victim ns l = some v) :
    v < l.length := by
  induction l generalizing v with
  | nil => simp [victim] at h
  | cons f rest ih =>
    simp only [victim] at h
    split at h
    · simp only [Option.some.injEq] at h; subst h; simp
    · cases hr : victim ns rest with
      | none => rw [hr] at h; simp at h
      | some w =>
        rw [hr] at h
        simp only [Option.map_some', Option.some.injEq] at h
        subst h
        have := ih w hr
        simp; omega

theorem rmFavSlice_locked (s : FavSlice) (ns : GoString) : rmFavSlice true s ns = s := by
  simp [rmFavSlice]

theorem rmFavSlice_inv (lock : Bool) (s : FavSlice) (ns : GoString)
    (hs : s.len ≤ s.cells.length) :
    (rmFavSlice lock s ns).len ≤ (rmFavSlice lock s ns).cells.length ∧
    (rmFavSlice lock s ns).cells.length = s.cells.length ∧
    List.Sublist (rmFavSlice lock s ns).view s.view := by
  unfold rmFavSlice
  cases lock with
  | true => simp [hs]
  | false =>
    simp only [Bool.false_eq_true, if_false]
    cases hv : victim ns s.view with
    | none => simp [hs]
    | some v =>
      have hlt : v < s.view.length := victim_lt ns _ v hv
      have hvl : v < s.len := by
        simp only [FavSlice.view, List.length_take] at hlt; omega
      simp only
      have hlen : (s.cells.take v ++ (s.cells.take s.len).drop (v + 1) ++
          s.cells.drop (s.len - 1)).length = s.cells.length := by
        simp only [List.length_append, List.length_take, List.length_drop]
        omega
      refine ⟨by rw [hlen]; omega, hlen, ?_⟩
      have hview : List.take (s.len - 1) (s.cells.take v ++ (s.cells.take s.len).drop (v + 1) ++
          s.cells.drop (s.len - 1)) = (s.cells.take s.len).eraseIdx v := by
        have hl : (s.cells.take v ++ (s.cells.take s.len).drop (v + 1)).length = s.len - 1 := by
          simp only [List.length_append, List.length_take, List.length_drop]
          omega
        rw [List.take_left' hl, List.eraseIdx_eq_take_drop_succ, List.take_take]
        have : min v s.len = v := by omega
        rw [this]
      simp only [FavSlice.view]
      rw [hview]
      exact List.eraseIdx_sublist _ _

theorem validateStep_inv (lock : Bool) (isValid : GoString → Bool) (s : FavSlice) (i : Nat)
    (hs : s.len ≤ s.cells.length) :
    (validateStep lock isValid s i).len ≤ (validateStep lock isValid s i).cells.length ∧
    List.Sublist (validateStep lock isValid s i).view s.view := by
  unfold validateStep
  split
  · have := rmFavSlice_inv lock s (s.cells.getD i []) hs
    exact ⟨this.1, this.2.2⟩
  · exact ⟨hs, List.Sublist.refl _⟩

theorem validateLoop_inv (lock : Bool) (isValid : GoString → Bool) (idx : List Nat)
    (s : FavSlice) (hs : s.len ≤ s.cells.length) :
    List.Sublist (idx.foldl (validateStep lock isValid) s).view s.view := by
  induction idx generalizing s with
  | nil => exact List.Sublist.refl _
  | cons i rest ih =>
    rw [List.foldl_cons]
    have h := validateStep_inv lock isValid s i hs
    exact (ih _ h.1).trans h.2

theorem validateLoop_locked (isValid : GoString → Bool) (idx : List Nat) (s : FavSlice) :
    idx.foldl (validateStep true isValid) s = s := by
  induction idx generalizing s with
  | nil => rfl
  | cons i rest ih =>
    rw [List.foldl_cons]
    have : validateStep true isValid s i = s := by
      unfold validateStep
      split
      · exact rmFavSlice_locked _ _
      · rfl
    rw [this, ih]

theorem view_full (l : List GoString) : (FavSlice.mk l l.length).view = l := by
  simp [FavSlice.view]

/-- The favorites after `Validate` are a sublist of the favorites before. -/
theorem Validate_sublist (n : Namespace) (conn : Option (GoString → Bool)) :
    List.Sublist (Validate n conn).Favorites n.Favorites := by
  unfold Validate
  cases conn with
  | none => exact List.Sublist.refl _
  | some isValid =>
    simp only
    split
    · exact List.Sublist.refl _
    · rw [trimFavNs_Favorites]
      have h := validateLoop_inv n.LockFavorites isValid (List.range n.Favorites.length)
        ⟨n.Favorites, n.Favorites.length⟩ (Nat.le_refl _)
      rw [view_full] at h
      exact (List.take_sublist _ _).trans h

theorem rmFavNS_sublist (n : Namespace) (ns : GoString) :
    List.Sublist (rmFavNS n ns).Favorites n.Favorites := by
  unfold rmFavNS
  have h := (rmFavSlice_inv n.LockFavorites ⟨n.Favorites, n.Favorites.length⟩ ns
    (Nat.le_refl _)).2.2
  rw [view_full] at h
  exact h

theorem mergeLoop (old : List GoString) (n : Namespace) :
    ∃ fresh : List GoString,
      (old.foldl mergeStep n).Favorites = n.Favorites ++ fresh ∧
      (old.foldl mergeStep n).Active = n.Active ∧
      (old.foldl mergeStep n).LockFavorites = n.LockFavorites ∧
      List.Sublist fresh old ∧ fresh.Nodup ∧ ∀ f, f ∈ fresh ↔ (f ∈ old ∧ f ∉ n.Favorites) := by
  induction old generalizing n with
  | nil => exact ⟨[], by simp⟩
  | cons a rest ih =>
    rw [List.foldl_cons]
    by_cases ha : a ∈ n.Favorites
    · have e : mergeStep n a = n := by simp [mergeStep, ha]
      rw [e]
      obtain ⟨fresh, h1, h2, h3, h4, h5, h6⟩ := ih n
      refine ⟨fresh, h1, h2, h3, h4.trans (List.sublist_cons_self _ _), h5, ?_⟩
      intro f
      rw [h6 f]
      constructor
      · rintro ⟨hf, hn⟩; exact ⟨List.mem_cons_of_mem _ hf, hn⟩
      · rintro ⟨hf, hn⟩
        rcases List.mem_cons.mp hf with h | h
        · subst h; exact absurd ha hn
        · exact ⟨h, hn⟩
    · have e : mergeStep n a = { n with Favorites := n.Favorites ++ [a] } := by
        simp [mergeStep, ha]
      rw [e]
      obtain ⟨fresh, h1, h2, h3, h4, h5, h6⟩ := ih { n with Favorites := n.Favorites ++ [a] }
      simp only at h1 h2 h3 h6
      refine ⟨a :: fresh, ?_, h2, h3, h4.cons₂ a, ?_, ?_⟩
      · rw [h1]; simp
      · rw [List.nodup_cons]
        refine ⟨?_, h5⟩
        intro hmem
        have := ((h6 a).mp hmem).2
        simp at this
      · intro f
        rw [List.mem_cons, h6 f, List.mem_cons]
        simp only [List.mem_append, List.mem_singleton, not_or]
        constructor
        · rintro (h | ⟨hf, hn, -⟩)
          · subst h; exact ⟨Or.inl rfl, ha⟩
          · exact ⟨Or.inr hf, hn⟩
        · rintro ⟨hf | hf, hn⟩
          · exact Or.inl hf
          · by_cases hfa : f = a
            · exact Or.inl hfa
            · exact Or.inr ⟨hf, hn, hfa⟩

theorem merge_unlocked (n old : Namespace) (hl : n.LockFavorites = false) :
    ∃ fresh : List GoString,
      (merge n old).Favorites = (n.Favorites ++ fresh).take 9 ∧
      List.Sublist fresh old.Favorites ∧ fresh.Nodup ∧
      ∀ f, f ∈ fresh ↔ (f ∈ old.Favorites ∧ f ∉ n.Favorites) := by
  obtain ⟨fresh, h1, -, -, h4, h5, h6⟩ := mergeLoop old.Favorites n
  refine ⟨fresh, ?_, h4, h5, h6⟩
  unfold merge
  simp only [hl, Bool.false_eq_true, if_false]
  rw [trimFavNs_Favorites, h1]

theorem SetActive_fst (c : ClientConsts) (n : Namespace) (ns : GoString) :
    (SetActive c n ns).1 =
      if (if ns = c.BlankNamespace then c.NamespaceAll else ns) ≠ [] ∧ n.LockFavorites = false
      then addFavNS { n with Active := if ns = c.BlankNamespace then c.NamespaceAll else ns }
        (if ns = c.BlankNamespace then c.NamespaceAll else ns)
      else { n with Active := if ns = c.BlankNamespace then c.NamespaceAll else ns } := rfl

theorem SetActive_Favorites_le (c : ClientConsts) (n : Namespace) (ns : GoString)
    (h : n.Favorites.length ≤ MaxFavoritesNS) :
    (SetActive c n ns).1.Favorites.length ≤ MaxFavoritesNS := by
  rw [SetActive_fst]
  unfold MaxFavoritesNS at *
  generalize (if ns = c.BlankNamespace then c.NamespaceAll else ns) = a
  split
  · rw [addFavNS_Favorites]
    split
    · exact h
    · simp only [List.length_cons, List.length_take]; omega
  · exact h

theorem ops_bounded (c : ClientConsts) (n : Namespace)
    (h : n.Favorites.length ≤ MaxFavoritesNS) :
    (∀ ns, (SetActive c n ns).1.Favorites.length ≤ MaxFavoritesNS) ∧
    (∀ old, (merge n old).Favorites.length ≤ MaxFavoritesNS) ∧
    (∀ conn, (Validate n conn).Favorites.length ≤ MaxFavoritesNS) ∧
    (∀ ns, (addFavNS n ns).Favorites.length ≤ MaxFavoritesNS) ∧
    (∀ ns, (rmFavNS n ns).Favorites.length ≤ MaxFavoritesNS) ∧
    (trimFavNs n).Favorites.length ≤ MaxFavoritesNS := by
  refine ⟨fun ns => SetActive_Favorites_le c n ns h, ?_, ?_, ?_, ?_, ?_⟩
  · intro old
    unfold merge
    split
    · exact h
    · rw [trimFavNs_Favorites]
      simp only [List.length_take, MaxFavoritesNS]; omega
  · intro conn
    exact (Validate_sublist n conn).length_le.trans h
  · intro ns
    rw [addFavNS_Favorites]
    unfold MaxFavoritesNS at *
    split
    · exact h
    · simp only [List.length_cons, List.length_take]; omega
  · intro ns
    exact (rmFavNS_sublist n ns).length_le.trans h
  · rw [trimFavNs_Favorites]
    simp only [List.length_take, MaxFavoritesNS]; omega

theorem reachable_bounded (c : ClientConsts) (m : Namespace) (hm : Reachable c m) :
    m.Favorites.length ≤ MaxFavoritesNS := by
  induction hm with
  | newNamespace => simp [NewNamespace, NewActiveNamespace, MaxFavoritesNS]
  | newActiveNamespace a => simp [NewActiveNamespace, MaxFavoritesNS]
  | setActive n ns _ ih => exact (ops_bounded c n ih).1 ns
  | merge n old _ ih => exact (ops_bounded c n ih).2.1 old
  | validate n conn _ ih => exact (ops_bounded c n ih).2.2.1 conn
  | addFavNS n ns _ ih => exact (ops_bounded c n ih).2.2.2.1 ns
  | rmFavNS n ns _ ih => exact (ops_bounded c n ih).2.2.2.2.1 ns
  | trimFavNs n _ ih => exact (ops_bounded c n ih).2.2.2.2.2

/-- C14: every operation of the favorites tracker keeps the list bounded: when
`Favorites` has at most `MaxFavoritesNS` (9) entries, it still has at most 9
after `SetActive`, `merge`, `Validate`, `addFavNS`, `rmFavNS` and `trimFavNs`;
`NewNamespace` and `NewActiveNamespace` start with exactly one favorite, so
every tracker reachable from them by these operations holds at most 9. -/
theorem Favorites_bounded (c : ClientConsts) (n : Namespace)
    (h : n.Favorites.length ≤ MaxFavoritesNS) :
    (∀ ns, (SetActive c n ns).1.Favorites.length ≤ MaxFavoritesNS) ∧
    (∀ old, (merge n old).Favorites.length ≤ MaxFavoritesNS) ∧
    (∀ conn, (Validate n conn).Favorites.length ≤ MaxFavoritesNS) ∧
    (∀ ns, (addFavNS n ns).Favorites.length ≤ MaxFavoritesNS) ∧
    (∀ ns, (rmFavNS n ns).Favorites.length ≤ MaxFavoritesNS) ∧
    (trimFavNs n).Favorites.length ≤ MaxFavoritesNS ∧
    MaxFavoritesNS = 9 ∧
    (NewNamespace c).Favorites.length = 1 ∧
    (∀ a, (NewActiveNamespace c a).Favorites.length = 1) ∧
    (∀ m, Reachable c m → m.Favorites.length ≤ MaxFavoritesNS) := by
  obtain ⟨h1, h2, h3, h4, h5, h6⟩ := ops_bounded c n h
  exact ⟨h1, h2, h3, h4, h5, h6, rfl, rfl, fun _ => rfl, reachable_bounded c⟩

/-- Witness of C14: a tracker with nine favorites, to which a tenth name is
made active. -/
theorem Favorites_bounded_witness :
    (Namespace.mk (str "a") false
        [str "a", str "b", str "c", str "d", str "e", str "f", str "g", str "h",
          str "i"]).Favorites.length ≤ MaxFavoritesNS ∧
    (SetActive k9sClient
        (Namespace.mk (str "a") false
          [str "a", str "b", str "c", str "d", str "e", str "f", str "g", str "h", str "i"])
        (str "z")).1.Favorites.length ≤ MaxFavoritesNS :=
  ⟨by decide,
    (Favorites_bounded k9sClient
      (Namespace.mk (str "a") false
        [str "a", str "b", str "c", str "d", str "e", str "f", str "g", str "h", str "i"])
      (by decide)).1 (str "z")⟩

/-- C16, evaluated on the failing input: with the favorites `a`, `x`, `y`, `b`,
of which the connection accepts `a` and `b` only, `Validate` removes `x` and
keeps `y`.  Removing `x` moves `y` into the cell the loop has just read, so the
loop never tests `y`. -/
theorem Validate_keeps_invalid :
    Validate (Namespace.mk (str "a") false [str "a", str "x", str "y", str "b"])
        (some connAB) =
      Namespace.mk (str "a") false [str "a", str "y", str "b"] ∧
    connAB (str "a") = true ∧ connAB (str "y") = false := by
  decide

/-- C17: for a tracker whose favorites are not locked, `SetActive ns` sets
`Active` to `ns`, or to the all-namespaces value when `ns` is blank; the
favorites are unchanged when they already hold that value and are otherwise
that value followed by the first 8 previous favorites in their order; the
error returned is nil.  The constants of package `client` are parameters: the
blank namespace is the empty string and the all-namespaces value is not
empty. -/
theorem SetActive_spec (c : ClientConsts) (n : Namespace) (ns : GoString)
    (hlock : n.LockFavorites = false)
    (hblank : c.BlankNamespace = str "") (hall : c.NamespaceAll ≠ str "") :
    (SetActive c n ns).1.Active = (if ns = str "" then c.NamespaceAll else ns) ∧
    (SetActive c n ns).1.Favorites =
      (if (if ns = str "" then c.NamespaceAll else ns) ∈ n.Favorites then n.Favorites
        else (if ns = str "" then c.NamespaceAll else ns) :: n.Favorites.take 8) ∧
    (SetActive c n ns).1.LockFavorites = false ∧
    (SetActive c n ns).2 = none := by
  have e : str "" = [] := rfl
  rw [e] at hblank hall ⊢
  have hne : (if ns = [] then c.NamespaceAll else ns) ≠ [] := by
    split
    · exact hall
    · assumption
  rw [SetActive_fst, hblank]
  simp only [hne, hlock, ne_eq, not_false_eq_true, and_self, if_true]
  refine ⟨(addFavNS_frame _ _).1, ?_, ?_, rfl⟩
  · rw [addFavNS_Favorites]
  · rw [(addFavNS_frame _ _).2]

/-- Witness of C17: the blank namespace made active on a tracker that holds
`default` only, with the constants of k9s. -/
theorem SetActive_spec_witness :
    (SetActive k9sClient (Namespace.mk (str "default") false [str "default"])
        (str "")).1.Active = str "all" ∧
    (SetActive k9sClient (Namespace.mk (str "default") false [str "default"])
        (str "")).1.Favorites = [str "all", str "default"] ∧
    (SetActive k9sClient (Namespace.mk (str "default") false [str "default"])
        (str "")).2 = none := by
  have h := SetActive_spec k9sClient (Namespace.mk (str "default") false [str "default"])
    (str "") rfl rfl (by decide)
  exact ⟨h.1, h.2.1, h.2.2.2⟩

/-- What holds of locked favorites: `SetActive`, `merge` and `rmFavNS` leave
them as they are, and `Validate` cuts them to their first 9. -/
theorem locked_Favorites (c : ClientConsts) (n : Namespace) (hlock : n.LockFavorites = true) :
    (∀ ns, (SetActive c n ns).1.Favorites = n.Favorites) ∧
    (∀ ns, (SetActive c n ns).1.Active =
      if ns = c.BlankNamespace then c.NamespaceAll else ns) ∧
    (∀ old, (merge n old).Favorites = n.Favorites) ∧
    (∀ ns, (rmFavNS n ns).Favorites = n.Favorites) ∧
    (∀ conn, (Validate n conn).Favorites = n.Favorites ∨
      (Validate n conn).Favorites = n.Favorites.take 9) := by
  refine ⟨?_, ?_, ?_, ?_, ?_⟩
  · intro ns; rw [SetActive_fst]; simp [hlock]
  · intro ns; rw [SetActive_fst]; simp [hlock]
  · intro old; simp [merge, hlock]
  · intro ns
    unfold rmFavNS
    rw [hlock, rmFavSlice_locked, view_full]
  · intro conn
    unfold Validate
    cases conn with
    | none => exact Or.inl rfl
    | some isValid =>
      simp only
      split
      · exact Or.inl rfl
      · right
        rw [trimFavNs_Favorites, hlock, validateLoop_locked, view_full]

/-- C18, evaluated on the failing input: a tracker with locked favorites and
ten of them, validated against a connection that accepts every namespace,
loses its tenth favorite. -/
theorem Validate_trims_locked :
    Validate
        (Namespace.mk (str "a") true
          [str "a", str "b", str "c", str "d", str "e", str "f", str "g", str "h", str "i",
            str "j"])
        (some connAny) =
      Namespace.mk (str "a") true
        [str "a", str "b", str "c", str "d", str "e", str "f", str "g", str "h", str "i"] := by
  decide

/-- C19: the list of favorites stays free of duplicates: when `Favorites` has
no repeated entry, it has none after `SetActive`, after `merge` (whatever the
old list, repeated entries included) and after `Validate`.  After `merge` on a
tracker that is not locked, the favorites are the first 9 of the receiver's
own favorites followed by the favorites of the old tracker that were not
present, each once and in their order; so the receiver's own first 9 stay at
the front. -/
theorem Favorites_nodup (c : ClientConsts) (n : Namespace) (h : n.Favorites.Nodup) :
    (∀ ns, (SetActive c n ns).1.Favorites.Nodup) ∧
    (∀ old, (merge n old).Favorites.Nodup) ∧
    (∀ conn, (Validate n conn).Favorites.Nodup) ∧
    (∀ old, n.LockFavorites = false →
      n.Favorites.take 9 <+: (merge n old).Favorites ∧
      ∃ fresh : List GoString,
        (merge n old).Favorites = (n.Favorites ++ fresh).take 9 ∧
        List.Sublist fresh old.Favorites ∧ fresh.Nodup ∧
        ∀ f, f ∈ fresh ↔ (f ∈ old.Favorites ∧ f ∉ n.Favorites)) := by
  refine ⟨?_, ?_, ?_, ?_⟩
  · intro ns
    rw [SetActive_fst]
    generalize (if ns = c.BlankNamespace then c.NamespaceAll else ns) = a
    split
    · rw [addFavNS_Favorites]
      split
      · exact h
      · rename_i hmem
        rw [List.nodup_cons]
        exact ⟨fun hm => hmem (List.mem_of_mem_take hm), h.sublist (List.take_sublist _ _)⟩
    · exact h
  · intro old
    cases hl : n.LockFavorites with
    | true => simpa [merge, hl] using h
    | false =>
      obtain ⟨fresh, h1, -, h3, h4⟩ := merge_unlocked n old hl
      rw [h1]
      apply List.Nodup.sublist (List.take_sublist _ _)
      rw [List.nodup_append]
      refine ⟨h, h3, ?_⟩
      intro a ha hf
      exact ((h4 a).mp hf).2 ha
  · intro conn
    exact h.sublist (Validate_sublist n conn)
  · intro old hl
    obtain ⟨fresh, h1, h2, h3, h4⟩ := merge_unlocked n old hl
    refine ⟨?_, fresh, h1, h2, h3, h4⟩
    rw [h1, List.take_append_eq_append_take]
    exact List.prefix_append _ _

/-- Witness of C19: a tracker with the favorites `a`, `b` merged with an old
one whose favorites are `c`, `b`, `c`, `d`. -/
theorem Favorites_nodup_witness :
    (Namespace.mk (str "a") false [str "a", str "b"]).Favorites.Nodup ∧
    (merge (Namespace.mk (str "a") false [str "a", str "b"])
      (Namespace.mk (str "a") false [str "c", str "b", str "c", str "d"])).Favorites.Nodup :=
  ⟨by decide,
    (Favorites_nodup k9sClient (Namespace.mk (str "a") false [str "a", str "b"])
      (by decide)).2.1 (Namespace.mk (str "a") false [str "c", str "b", str "c", str "d"])⟩

end Data

/-! # Proofs for `indicator.go` -/

namespace Ui

open Render (GoString str)

theorem Sprintf_statusIndicatorFmt (a1 a2 a3 a4 a5 a6 a7 a8 a9 a10 a11 a12 : GoString) :
    Sprintf statusIndicatorFmt [a1, a2, a3, a4, a5, a6, a7, a8, a9, a10, a11, a12] =
      str "[" ++ a1 ++ str "::b]K9s [" ++ a2 ++ str "::]" ++ a3 ++ str " [" ++ a4 ++
        str "::]" ++ a5 ++ str ":" ++ a6 ++ str ":" ++ a7 ++ str " [" ++ a8 ++ str "::]" ++
        a9 ++ str "[" ++ a10 ++ str "::]::[" ++ a11 ++ str "::]" ++ a12 := by
  have e : statusIndicatorFmt =
      [91, 37, 115, 58, 58, 98, 93, 75, 57, 115, 32, 91, 37, 115, 58, 58, 93, 37, 115, 32,
        91, 37, 115, 58, 58, 93, 37, 115, 58, 37, 115, 58, 37, 115, 32, 91, 37, 115, 58, 58,
        93, 37, 115, 91, 37, 115, 58, 58, 93, 58, 58, 91, 37, 115, 58, 58, 93, 37, 115] := by
    decide
  have h1 : str "[" = [91] := by decide
  have h2 : str "::b]K9s [" = [58, 58, 98, 93, 75, 57, 115, 32, 91] := by decide
  have h3 : str "::]" = [58, 58, 93] := by decide
  have h4 : str " [" = [32, 91] := by decide
  have h5 : str ":" = [58] := by decide
  have h6 : str "::]::[" = [58, 58, 93, 58, 58, 91] := by decide
  rw [e, h1, h2, h3, h4, h5, h6]
  simp [Sprintf, SprintfScan]

/-- The text that `ClusterInfoChanged` sets as permanent title when the
application runs. -/
theorem ClusterInfoChanged_permanent (IntToStr : Int → GoString)
    (Deltas : GoString → GoString → GoString) (styles : StyleColors) (s : StatusIndicator)
    (prev cur : ClusterMeta) :
    (ClusterInfoChanged IntToStr Deltas styles true s prev cur).permanent =
      str "[" ++ styles.LogoColor ++ str "::b]K9s [" ++ styles.K9sRevColor ++ str "::]" ++
        cur.K9sVer ++ str " [" ++ styles.InfoFgColor ++ str "::]" ++ cur.Context ++ str ":" ++
        cur.Cluster ++ str ":" ++ cur.K8sVer ++ str " [" ++ styles.CPUColor ++ str "::]" ++
        AsPercDelta IntToStr Deltas prev.Cpu cur.Cpu ++ str "[" ++ styles.BodyFgColor ++
        str "::]::[" ++ styles.MEMColor ++ str "::]" ++
        AsPercDelta IntToStr Deltas prev.Cpu cur.Mem := by
  simp only [ClusterInfoChanged, SetPermanent, Bool.not_true, Bool.false_eq_true, if_false]
  rw [Sprintf_statusIndicatorFmt]

/-- C20, evaluated on the failing input: with a previous CPU value of 10 and a
memory value of 50 both before and now, the memory segment of the permanent
title is built by `AsPercDelta` from the previous CPU value 10 and the memory
value 50, that is, it ends in `Deltas (IntToStr 10) (IntToStr 50)`, and the
previous memory value does not appear in the text at all: the text is the same
for every previous memory value. -/
theorem ClusterInfoChanged_mem_uses_prev_cpu (IntToStr : Int → GoString)
    (Deltas : GoString → GoString → GoString) (styles : StyleColors) (s : StatusIndicator)
    (ctx cluster k9s k8s : GoString) (otherMem : Int) :
    (ClusterInfoChanged IntToStr Deltas styles true s
        { Context := ctx, Cluster := cluster, K9sVer := k9s, K8sVer := k8s, Cpu := 10,
          Mem := 50 }
        { Context := ctx, Cluster := cluster, K9sVer := k9s, K8sVer := k8s, Cpu := 10,
          Mem := 50 }).permanent =
      str "[" ++ styles.LogoColor ++ str "::b]K9s [" ++ styles.K9sRevColor ++ str "::]" ++
        k9s ++ str " [" ++ styles.InfoFgColor ++ str "::]" ++ ctx ++ str ":" ++
        cluster ++ str ":" ++ k8s ++ str " [" ++ styles.CPUColor ++ str "::]" ++
        AsPercDelta IntToStr Deltas 10 10 ++ str "[" ++ styles.BodyFgColor ++
        str "::]::[" ++ styles.MEMColor ++ str "::]" ++
        (IntToStr 50 ++ str "%" ++ Deltas (IntToStr 10) (IntToStr 50)) ∧
    AsPercDelta IntToStr Deltas 10 50 =
      IntToStr 50 ++ str "%" ++ Deltas (IntToStr 10) (IntToStr 50) ∧
    AsPercDelta IntToStr Deltas 50 50 =
      IntToStr 50 ++ str "%" ++ Deltas (IntToStr 50) (IntToStr 50) ∧
    ClusterInfoChanged IntToStr Deltas styles true s
        { Context := ctx, Cluster := cluster, K9sVer := k9s, K8sVer := k8s, Cpu := 10,
          Mem := otherMem }
        { Context := ctx, Cluster := cluster, K9sVer := k9s, K8sVer := k8s, Cpu := 10,
          Mem := 50 } =
      ClusterInfoChanged IntToStr Deltas styles true s
        { Context := ctx, Cluster := cluster, K9sVer := k9s, K8sVer := k8s, Cpu := 10,
          Mem := 50 }
        { Context := ctx, Cluster := cluster, K9sVer := k9s, K8sVer := k8s, Cpu := 10,
          Mem := 50 } := by
  refine ⟨?_, rfl, rfl, rfl⟩
  rw [ClusterInfoChanged_permanent]
  rfl

end Ui
